import Mathlib

/-! # A bounded blocking channel: `channels.c`

Shallow embedding of the channel of `src/channels.c` and proofs of its
sequential contract.

Modelling conventions.

* A `void*` is an address, a natural number; `NULL` is `0`.
* A buffer cell is an `Option Nat`: `none` is a cell of the `malloc`ed block
  that no `channel_send` has written yet, `some p` a cell holding pointer `p`.
* The C `int` fields are `Int`; `%` on them is C's truncating remainder
  (`Int.tmod`). An array access outside `[0, CHANNEL_BUFFER_SIZE)` and a
  signed overflow of `count` are undefined behaviour, reported as
  `outcome.undefined`.
* A POSIX semaphore is its permit count, a `Nat`; `sem_wait` on `0` does not
  return, reported as `outcome.blocks`.
* The mutex only makes the critical sections atomic; in the sequential part a
  whole call is one atomic step, and `send_locked` / `receive_locked` are the
  parts of a call that run after its `sem_wait`.
* In the part on two threads the mutex is a flag, and a call is split into
  its semaphore operations, the taking of the mutex and the critical section
  (`send_critical`, `receive_critical`); the threads interleave these steps.
-/

/-! ## Data model -/

/-- Source: `#define CHANNEL_BUFFER_SIZE 100`. -/
def CHANNEL_BUFFER_SIZE : Nat := 100

/-- The null pointer. -/
def NULL : Nat := 0

/-- Largest value of a C `int` (32 bits). -/
def INT_MAX : Int := 2147483647

/-- Smallest value of a C `int` (32 bits). -/
def INT_MIN : Int := -2147483648

/-- Source: `struct channel`; the fields `empty` and `full` are the permit counts of
the two semaphores, the mutex carries no data. -/
structure channel where
  buffer : List (Option Nat)
  read_index : Int
  write_index : Int
  count : Int
  empty : Nat
  full : Nat
  is_closed : Bool
deriving DecidableEq, Repr

/-- What a call does: it never gets past a `sem_wait` (`blocks`), it runs into
undefined behaviour, or it returns a result and leaves a new state. -/
inductive outcome (ρ : Type) where
  | blocks : outcome ρ
  | undefined : outcome ρ
  | returns : ρ → channel → outcome ρ
deriving DecidableEq, Repr

/-- Post-process the result of a call that returns. -/
def outcome.map {ρ σ : Type} (f : ρ → σ) (g : channel → channel) : outcome ρ → outcome σ
  | .blocks => .blocks
  | .undefined => .undefined
  | .returns r s => .returns (f r) (g s)

/-! ## Semaphores -/

/-- Model of `sem_wait`: with no permit the caller is suspended (`none`), otherwise one
permit is taken. -/
def sem_wait (sem : Nat) : Option Nat :=
  if sem = 0 then none else some (sem - 1)

/-- Model of `sem_post`: one more permit. -/
def sem_post (sem : Nat) : Nat := sem + 1

/-! ## Operations -/

/-- The channel that `channel_create` initialises in the block it got from `malloc`
(lines 24-31); the buffer is not written. -/
def channel_init : channel :=
  { buffer := List.replicate CHANNEL_BUFFER_SIZE none
    read_index := 0
    write_index := 0
    count := 0
    empty := CHANNEL_BUFFER_SIZE
    full := 0
    is_closed := false }

/-- Source: `channel_create`; `malloc_ok` says whether `malloc` returned a block, and
`none` is the `NULL` result. -/
def channel_create (malloc_ok : Bool) : Option channel :=
  if malloc_ok then some channel_init else none

/-- Source: `channel_send`, lines 42-61: the part after `sem_wait(&ch->empty)`, that is the
critical section and the `sem_post` that follows it. -/
def send_locked (ch : channel) (data : Nat) : outcome Bool :=
  if ch.is_closed then
    .returns false { ch with empty := sem_post ch.empty }
  else if ch.write_index < 0 ∨ (CHANNEL_BUFFER_SIZE : Int) ≤ ch.write_index then
    .undefined
  else if ch.count = INT_MAX then
    .undefined
  else
    .returns true
      { ch with
        buffer := ch.buffer.set ch.write_index.toNat (some data)
        write_index := (ch.write_index + 1).tmod CHANNEL_BUFFER_SIZE
        count := ch.count + 1
        full := sem_post ch.full }

/-- Source: `channel_send`. -/
def channel_send (ch : channel) (data : Nat) : outcome Bool :=
  if ch.is_closed then
    .returns false ch
  else
    match sem_wait ch.empty with
    | none => .blocks
    | some e => send_locked { ch with empty := e } data

/-- Source: `channel_receive`, lines 66-84: the part after `sem_wait(&ch->full)`. The result
is the content of the cell read, `none` when that cell was never written. -/
def receive_locked (ch : channel) : outcome (Option Nat) :=
  if ch.count = 0 then
    .returns (some NULL) { ch with full := sem_post ch.full }
  else if ch.read_index < 0 ∨ (CHANNEL_BUFFER_SIZE : Int) ≤ ch.read_index then
    .undefined
  else if ch.count = INT_MIN then
    .undefined
  else
    .returns (ch.buffer.getD ch.read_index.toNat none)
      { ch with
        read_index := (ch.read_index + 1).tmod CHANNEL_BUFFER_SIZE
        count := ch.count - 1
        empty := sem_post ch.empty }

/-- Source: `channel_receive`. -/
def channel_receive (ch : channel) : outcome (Option Nat) :=
  match sem_wait ch.full with
  | none => .blocks
  | some f => receive_locked { ch with full := f }

/-- Source: `channel_close`. -/
def channel_close (ch : channel) : channel :=
  { ch with is_closed := true }

/-! ## Sequences of calls -/

/-- One call on a channel. -/
inductive call where
  | send (data : Nat) : call
  | receive : call
  | close : call
deriving DecidableEq, Repr

/-- What a call returned. -/
inductive ret where
  | send (ok : Bool) : ret
  | receive (data : Option Nat) : ret
  | close : ret
deriving DecidableEq, Repr

/-- Run one call atomically. -/
def step (ch : channel) : call → outcome ret
  | .send data => (channel_send ch data).map ret.send id
  | .receive => (channel_receive ch).map ret.receive id
  | .close => .returns ret.close (channel_close ch)

/-- Run the calls one after the other, each atomically; the run stops at the first call
that blocks or is undefined. -/
def run (ch : channel) : List call → outcome (List ret)
  | [] => .returns [] ch
  | c :: cs =>
    match step ch c with
    | .blocks => .blocks
    | .undefined => .undefined
    | .returns r s => (run s cs).map (fun rs => r :: rs) id

/-- The states that some sequence of atomic calls reaches from a fresh channel. -/
inductive reachable : channel → Prop where
  | create : reachable channel_init
  | step {s s' : channel} {c : call} {r : ret} :
      reachable s → step s c = .returns r s' → reachable s'

/-- The values the receives of a run returned, in order. -/
def received : List ret → List (Option Nat)
  | [] => []
  | .receive d :: rs => d :: received rs
  | _ :: rs => received rs

/-- The values of the sends of a run that returned `true`, in order. -/
def accepted : List call → List ret → List Nat
  | .send v :: cs, .send true :: rs => v :: accepted cs rs
  | _ :: cs, _ :: rs => accepted cs rs
  | _, _ => []

/-- The number of `send` calls in a sequence. -/
def sends : List call → Nat
  | [] => 0
  | .send _ :: cs => sends cs + 1
  | _ :: cs => sends cs

/-- The number of `receive` calls in a sequence. -/
def receives : List call → Nat
  | [] => 0
  | .receive :: cs => receives cs + 1
  | _ :: cs => receives cs

/-- The queued cells, oldest first: the `count` cells from `read_index` on, modulo the
buffer size. -/
def window (ch : channel) : List (Option Nat) :=
  (List.range ch.count.toNat).map fun i =>
    ch.buffer.getD ((ch.read_index.toNat + i) % CHANNEL_BUFFER_SIZE) none

/-- The ring-buffer and permit invariant of the channel. -/
def inv (ch : channel) : Prop :=
  ch.buffer.length = CHANNEL_BUFFER_SIZE ∧
  0 ≤ ch.count ∧ ch.count ≤ CHANNEL_BUFFER_SIZE ∧
  0 ≤ ch.read_index ∧ ch.read_index < CHANNEL_BUFFER_SIZE ∧
  0 ≤ ch.write_index ∧ ch.write_index < CHANNEL_BUFFER_SIZE ∧
  ch.write_index = (ch.read_index + ch.count) % CHANNEL_BUFFER_SIZE ∧
  (ch.full : Int) = ch.count ∧
  (ch.empty : Int) + ch.count = CHANNEL_BUFFER_SIZE

/-! ## The queue of the specification -/

/-- The bounded FIFO queue of the specification: the queued values, oldest first, and the
`closed` flag. -/
structure queue where
  items : List Nat
  closed : Bool
deriving DecidableEq, Repr

/-- The queue of a new channel. -/
def queue_init : queue := { items := [], closed := false }

/-- Specification of one call on the queue (`none`: the call blocks): a send on a closed
queue returns `false`, a send on a full queue blocks, any other send appends at the back; a
receive on an empty queue blocks, any other removes the front; close sets the flag. -/
def queue_step (q : queue) : call → Option (ret × queue)
  | .send v =>
    if q.closed then some (.send false, q)
    else if q.items.length = CHANNEL_BUFFER_SIZE then none
    else some (.send true, { q with items := q.items ++ [v] })
  | .receive =>
    match q.items with
    | [] => none
    | v :: rest => some (.receive (some v), { q with items := rest })
  | .close => some (.close, { q with closed := true })

/-- Specification of a sequence of calls on the queue. -/
def queue_run (q : queue) : List call → Option (List ret × queue)
  | [] => some ([], q)
  | c :: cs =>
    match queue_step q c with
    | none => none
    | some (r, q') =>
      match queue_run q' cs with
      | none => none
      | some (rs, q'') => some (r :: rs, q'')

/-! ## Concrete states used as examples -/

/-- The calls `send 0, ..., send (n-1)`. -/
def send_range (n : Nat) : List call := (List.range n).map call.send

/-- A channel after `send 7`. -/
def one_queued : channel :=
  { channel_init with
    buffer := channel_init.buffer.set 0 (some 7)
    write_index := 1
    count := 1
    empty := 99
    full := 1 }

/-- A channel after `send 0, ..., send 99` and `close`: full and closed. -/
def full_closed : channel :=
  { buffer := (List.range CHANNEL_BUFFER_SIZE).map some
    read_index := 0
    write_index := 0
    count := 100
    empty := 0
    full := 100
    is_closed := true }

/-- The refinement relation: the channel satisfies its invariant, its queued cells are the
items of the queue, and the two `closed` flags agree. -/
def refines (s : channel) (q : queue) : Prop :=
  inv s ∧ window s = q.items.map some ∧ s.is_closed = q.closed

/-- A channel after `send 1, send 2, receive, close, send 3, receive`. -/
def drained_closed : channel :=
  { channel_init with
    buffer := (channel_init.buffer.set 0 (some 1)).set 1 (some 2)
    read_index := 2
    write_index := 2
    is_closed := true }

/-- A channel after `send NULL`. -/
def null_queued : channel :=
  { channel_init with
    buffer := channel_init.buffer.set 0 (some NULL)
    write_index := 1
    count := 1
    empty := 99
    full := 1 }

/-- The cell `i` is one of the `count` queued cells: `i = (read_index + k) mod C` for some
`0 ≤ k < count`. -/
def in_window (ch : channel) (i : Nat) : Prop :=
  ∃ k ∈ List.range ch.count.toNat, i = (ch.read_index.toNat + k) % CHANNEL_BUFFER_SIZE

instance in_window_decidable (ch : channel) (i : Nat) : Decidable (in_window ch i) := by
  unfold in_window
  infer_instance

/-- A channel after `send 7, receive`. -/
def received_one : channel :=
  { channel_init with
    buffer := channel_init.buffer.set 0 (some 7)
    read_index := 1
    write_index := 1 }

/-! ## Two threads on one channel

The program of `main` (lines 128-139) and `receive_numbers` (lines 107-115): a producer thread
runs `channel_send` once per value, a consumer thread runs `channel_receive` as many times. A
thread moves in atomic steps: a semaphore operation, taking the mutex, or the critical section
up to the release of the mutex. -/

/-- Where the producer is in its current `channel_send`: before line 37, 41, 42, 46 (holding the
mutex), 48 or 59. -/
inductive send_pc where
  | check : send_pc
  | wait : send_pc
  | lock : send_pc
  | locked : send_pc
  | undo : send_pc
  | post : send_pc
deriving DecidableEq, Repr

/-- Where the consumer is in its current `channel_receive`: before line 65, 66, 69 (holding the
mutex), 71, or 82 with the value it read. -/
inductive receive_pc where
  | wait : receive_pc
  | lock : receive_pc
  | locked : receive_pc
  | undo : receive_pc
  | post (data : Option Nat) : receive_pc
deriving DecidableEq, Repr

/-- Source: `channel_send`, lines 46-58: the critical section, up to the release of the mutex;
the result says where the call goes on, `none` is undefined behaviour. -/
def send_critical (ch : channel) (data : Nat) : Option (send_pc × channel) :=
  if ch.is_closed then
    some (.undo, ch)
  else if ch.write_index < 0 ∨ (CHANNEL_BUFFER_SIZE : Int) ≤ ch.write_index then
    none
  else if ch.count = INT_MAX then
    none
  else
    some (.post,
      { ch with
        buffer := ch.buffer.set ch.write_index.toNat (some data)
        write_index := (ch.write_index + 1).tmod CHANNEL_BUFFER_SIZE
        count := ch.count + 1 })

/-- Source: `channel_receive`, lines 69-81: the critical section, up to the release of the
mutex; the result says where the call goes on, `none` is undefined behaviour. -/
def receive_critical (ch : channel) : Option (receive_pc × channel) :=
  if ch.count = 0 then
    some (.undo, ch)
  else if ch.read_index < 0 ∨ (CHANNEL_BUFFER_SIZE : Int) ≤ ch.read_index then
    none
  else if ch.count = INT_MIN then
    none
  else
    some (.post (ch.buffer.getD ch.read_index.toNat none),
      { ch with
        read_index := (ch.read_index + 1).tmod CHANNEL_BUFFER_SIZE
        count := ch.count - 1 })

/-- The two threads and the channel they share. -/
structure threads where
  ch : channel
  mutex : Bool
  todo : List Nat
  spc : send_pc
  sent : List Bool
  remaining : Nat
  rpc : receive_pc
  got : List (Option Nat)
deriving DecidableEq, Repr

/-- The state in which the two threads start: the producer has the values `xs` to send, the
consumer has as many receives to do. -/
def start (ch : channel) (xs : List Nat) : threads :=
  { ch := ch
    mutex := false
    todo := xs
    spc := .check
    sent := []
    remaining := xs.length
    rpc := .wait
    got := [] }

/-- What a thread does when it is scheduled: it cannot move (it waits for a permit or for the
mutex, or it has finished), it runs into undefined behaviour, or it takes one step. -/
inductive move where
  | blocked : move
  | undefined : move
  | next : threads → move
deriving DecidableEq, Repr

/-- One step of the producer: `todo` holds the values of the sends that have not returned, its
head is the argument of the current call. -/
def producer_step (σ : threads) : move :=
  match σ.todo with
  | [] => .blocked
  | v :: rest =>
    match σ.spc with
    | .check =>
      if σ.ch.is_closed then
        .next { σ with todo := rest, sent := σ.sent ++ [false] }
      else
        .next { σ with spc := .wait }
    | .wait =>
      match sem_wait σ.ch.empty with
      | none => .blocked
      | some e => .next { σ with ch := { σ.ch with empty := e }, spc := .lock }
    | .lock =>
      if σ.mutex then .blocked else .next { σ with mutex := true, spc := .locked }
    | .locked =>
      match send_critical σ.ch v with
      | none => .undefined
      | some (pc, ch') => .next { σ with ch := ch', mutex := false, spc := pc }
    | .undo =>
      .next { σ with
        ch := { σ.ch with empty := sem_post σ.ch.empty }
        spc := .check, todo := rest, sent := σ.sent ++ [false] }
    | .post =>
      .next { σ with
        ch := { σ.ch with full := sem_post σ.ch.full }
        spc := .check, todo := rest, sent := σ.sent ++ [true] }

/-- One step of the consumer: `remaining` counts the receives that have not returned, `got`
lists the results of those that have. -/
def consumer_step (σ : threads) : move :=
  match σ.remaining with
  | 0 => .blocked
  | n + 1 =>
    match σ.rpc with
    | .wait =>
      match sem_wait σ.ch.full with
      | none => .blocked
      | some f => .next { σ with ch := { σ.ch with full := f }, rpc := .lock }
    | .lock =>
      if σ.mutex then .blocked else .next { σ with mutex := true, rpc := .locked }
    | .locked =>
      match receive_critical σ.ch with
      | none => .undefined
      | some (pc, ch') => .next { σ with ch := ch', mutex := false, rpc := pc }
    | .undo =>
      .next { σ with
        ch := { σ.ch with full := sem_post σ.ch.full }
        rpc := .wait, remaining := n, got := σ.got ++ [some NULL] }
    | .post d =>
      .next { σ with
        ch := { σ.ch with empty := sem_post σ.ch.empty }
        rpc := .wait, remaining := n, got := σ.got ++ [d] }

/-- The two threads. -/
inductive thread where
  | producer : thread
  | consumer : thread
deriving DecidableEq, Repr

/-- One step of the scheduled thread. -/
def thread_step (σ : threads) : thread → move
  | .producer => producer_step σ
  | .consumer => consumer_step σ

/-- An interleaving: the threads step in the order of the schedule; it is `blocked` when the
schedule picks a thread that cannot move. -/
def interleave (σ : threads) : List thread → move
  | [] => .next σ
  | t :: ts =>
    match thread_step σ t with
    | .blocked => .blocked
    | .undefined => .undefined
    | .next σ' => interleave σ' ts

/-- The number of steps the producer still has to take: five per send. -/
def producer_steps (σ : threads) : Nat :=
  5 * σ.todo.length -
    match σ.spc with
    | .check => 0
    | .wait => 1
    | .lock => 2
    | .locked => 3
    | .undo => 4
    | .post => 4

/-- The number of steps the consumer still has to take: four per receive. -/
def consumer_steps (σ : threads) : Nat :=
  4 * σ.remaining -
    match σ.rpc with
    | .wait => 0
    | .lock => 1
    | .locked => 2
    | .undo => 3
    | .post _ => 3

/-- The free-slot permits the producer holds: taken at line 41, not yet used at line 53. -/
def send_pc.reserved : send_pc → Int
  | .lock => 1
  | .locked => 1
  | _ => 0

/-- The filled-slot permits the producer owes: cell written, line 59 not yet run. -/
def send_pc.owed : send_pc → Int
  | .post => 1
  | _ => 0

/-- The filled-slot permits the consumer holds: taken at line 65, not yet used at line 76. -/
def receive_pc.reserved : receive_pc → Int
  | .lock => 1
  | .locked => 1
  | _ => 0

/-- The free-slot permits the consumer owes: cell read, line 82 not yet run. -/
def receive_pc.owed : receive_pc → Int
  | .post _ => 1
  | _ => 0

/-- The value the consumer has read and not yet returned. -/
def receive_pc.pending : receive_pc → List (Option Nat)
  | .post d => [d]
  | _ => []

/-- The values the producer has not yet written to the buffer. -/
def unwritten (σ : threads) : List Nat :=
  match σ.spc with
  | .post => σ.todo.tail
  | _ => σ.todo

/-- The invariant of the two threads sending and receiving the values `xs`. -/
structure threads_inv (xs : List Nat) (σ : threads) : Prop where
  is_open : σ.ch.is_closed = false
  length : σ.ch.buffer.length = CHANNEL_BUFFER_SIZE
  count_nonneg : 0 ≤ σ.ch.count
  count_le : σ.ch.count ≤ CHANNEL_BUFFER_SIZE
  read_nonneg : 0 ≤ σ.ch.read_index
  read_lt : σ.ch.read_index < CHANNEL_BUFFER_SIZE
  write_nonneg : 0 ≤ σ.ch.write_index
  write_lt : σ.ch.write_index < CHANNEL_BUFFER_SIZE
  write_eq : σ.ch.write_index = (σ.ch.read_index + σ.ch.count) % CHANNEL_BUFFER_SIZE
  free : (σ.ch.empty : Int) + σ.spc.reserved + σ.rpc.owed + σ.ch.count = CHANNEL_BUFFER_SIZE
  filled : (σ.ch.full : Int) + σ.rpc.reserved + σ.spc.owed = σ.ch.count
  exclusion : (σ.mutex = true ↔ σ.spc = .locked ∨ σ.rpc = .locked) ∧
    ¬ (σ.spc = .locked ∧ σ.rpc = .locked)
  no_undo : σ.spc ≠ .undo ∧ σ.rpc ≠ .undo
  in_call : (σ.spc ≠ .check → σ.todo ≠ []) ∧ (σ.rpc ≠ .wait → σ.remaining ≠ 0)
  values : σ.got ++ σ.rpc.pending ++ window σ.ch ++ (unwritten σ).map some = xs.map some
  receives_left : σ.remaining + σ.got.length = xs.length
  sends_done : σ.sent.length + σ.todo.length = xs.length ∧ ∀ b ∈ σ.sent, b = true

/-- The two threads after the values `5` and `6` went through a fresh channel. -/
def two_received : threads :=
  { start channel_init [5, 6] with
    ch :=
      { channel_init with
        buffer := (channel_init.buffer.set 0 (some 5)).set 1 (some 6)
        read_index := 2
        write_index := 2 }
    todo := []
    sent := [true, true]
    remaining := 0
    got := [some 5, some 6] }

/-- The two threads after the producer sent `5` and the consumer received once on the channel
that already held the value `7`. -/
def stale_received : threads :=
  { start one_queued [5] with
    ch :=
      { one_queued with
        buffer := one_queued.buffer.set 1 (some 5)
        read_index := 1
        write_index := 2 }
    todo := []
    sent := [true]
    remaining := 0
    got := [some 7] }

/-! ## Basic facts -/

theorem inv_channel_init : inv channel_init := by
  simp [inv, channel_init, CHANNEL_BUFFER_SIZE]

/-- A send on an open channel with room: it returns `true`, keeps the invariant and appends
the value to the queued cells. -/
theorem channel_send_open {s : channel} (h : inv s) (ho : s.is_closed = false)
    (hc : s.count < CHANNEL_BUFFER_SIZE) (v : Nat) :
    ∃ s', channel_send s v = .returns true s' ∧ inv s' ∧
      window s' = window s ++ [some v] ∧ s'.is_closed = false ∧
      s'.count = s.count + 1 ∧ s'.empty + 1 = s.empty ∧ s'.full = s.full + 1 := by
  obtain ⟨hl, h0, h1, hr0, hr1, hw0, hw1, hw, hf, he⟩ := h
  simp only [CHANNEL_BUFFER_SIZE, Nat.cast_ofNat] at hl h0 h1 hr0 hr1 hw0 hw1 hw hf he hc
  have hemp : s.empty ≠ 0 := by omega
  have hmax : s.count ≠ INT_MAX := by simp only [INT_MAX]; omega
  have hnb : ¬ (s.write_index < 0 ∨ (100 : Int) ≤ s.write_index) := by omega
  have htm : (s.write_index + 1).tmod 100 = (s.write_index + 1) % 100 :=
    Int.tmod_eq_emod (by omega) (by omega)
  refine ⟨{ s with
      buffer := s.buffer.set s.write_index.toNat (some v)
      write_index := (s.write_index + 1).tmod CHANNEL_BUFFER_SIZE
      count := s.count + 1
      empty := s.empty - 1
      full := sem_post s.full }, ?_, ?_, ?_, ?_, ?_, ?_, ?_⟩
  · simp only [channel_send, ho, sem_wait, hemp, send_locked, hnb, hmax, CHANNEL_BUFFER_SIZE,
      Nat.cast_ofNat, if_false, Bool.false_eq_true]
  · simp only [inv, CHANNEL_BUFFER_SIZE, Nat.cast_ofNat, List.length_set, sem_post, htm]
    refine ⟨hl, ?_, ?_, hr0, hr1, ?_, ?_, ?_, ?_, ?_⟩ <;> push_cast <;> omega
  · obtain ⟨r, hr⟩ := Int.eq_ofNat_of_zero_le hr0
    obtain ⟨c, hcn⟩ := Int.eq_ofNat_of_zero_le h0
    obtain ⟨w, hwn⟩ := Int.eq_ofNat_of_zero_le hw0
    simp only [window, hr, hcn, hwn, CHANNEL_BUFFER_SIZE, Int.toNat_ofNat] at *
    have hc1 : ((c : Int) + 1).toNat = c + 1 := by omega
    rw [hc1, List.range_succ, List.map_append]
    have hwc : w = (r + c) % 100 := by omega
    congr 1
    · apply List.map_congr_left
      intro i hi
      rw [List.mem_range] at hi
      simp only [List.getD_eq_getElem?_getD, List.getElem?_set]
      have : w ≠ (r + i) % 100 := by omega
      simp [this]
    · simp only [List.map_cons, List.map_nil, List.getD_eq_getElem?_getD, List.getElem?_set]
      have hwl : w < s.buffer.length := by omega
      simp [← hwc, hwl]
  · exact ho
  · rfl
  · simp only [sem_post]; omega
  · rfl

theorem channel_send_closed {s : channel} (hc : s.is_closed = true) (v : Nat) :
    channel_send s v = .returns false s := by
  simp [channel_send, hc]

/-- A send on an open, full channel does not get past `sem_wait`. -/
theorem channel_send_full {s : channel} (h : inv s) (ho : s.is_closed = false)
    (hc : s.count = CHANNEL_BUFFER_SIZE) (v : Nat) : channel_send s v = .blocks := by
  obtain ⟨-, -, -, -, -, -, -, -, -, he⟩ := h
  have hemp : s.empty = 0 := by omega
  simp [channel_send, ho, sem_wait, hemp]

/-- A receive on an empty channel does not get past `sem_wait`. -/
theorem channel_receive_empty {s : channel} (h : inv s) (hc : s.count = 0) :
    channel_receive s = .blocks := by
  obtain ⟨-, -, -, -, -, -, -, -, hf, -⟩ := h
  have hfull : s.full = 0 := by omega
  simp [channel_receive, sem_wait, hfull]

/-- A receive on a channel that is not empty: it returns the oldest queued cell, keeps the
invariant and removes that cell from the queued cells. -/
theorem channel_receive_nonempty {s : channel} (h : inv s) (hc : 0 < s.count) :
    ∃ d s', channel_receive s = .returns d s' ∧ inv s' ∧
      window s = d :: window s' ∧ s'.is_closed = s.is_closed ∧
      s'.count = s.count - 1 ∧ s'.empty = s.empty + 1 ∧ s'.full + 1 = s.full ∧
      d = s.buffer.getD s.read_index.toNat none := by
  obtain ⟨hl, h0, h1, hr0, hr1, hw0, hw1, hw, hf, he⟩ := h
  simp only [CHANNEL_BUFFER_SIZE, Nat.cast_ofNat] at hl h0 h1 hr0 hr1 hw0 hw1 hw hf he hc
  have hfull : s.full ≠ 0 := by omega
  have hne : s.count ≠ 0 := by omega
  have hmin : s.count ≠ INT_MIN := by simp only [INT_MIN]; omega
  have hnb : ¬ (s.read_index < 0 ∨ (100 : Int) ≤ s.read_index) := by omega
  have htm : (s.read_index + 1).tmod 100 = (s.read_index + 1) % 100 :=
    Int.tmod_eq_emod (by omega) (by omega)
  refine ⟨s.buffer.getD s.read_index.toNat none,
    { s with
      read_index := (s.read_index + 1).tmod CHANNEL_BUFFER_SIZE
      count := s.count - 1
      empty := sem_post s.empty
      full := s.full - 1 }, ?_, ?_, ?_, rfl, rfl, rfl, ?_, rfl⟩
  · simp only [channel_receive, sem_wait, hfull, receive_locked, hne, hnb, hmin,
      CHANNEL_BUFFER_SIZE, Nat.cast_ofNat, if_false]
  · simp only [inv, CHANNEL_BUFFER_SIZE, Nat.cast_ofNat, sem_post, htm]
    refine ⟨hl, ?_, ?_, ?_, ?_, hw0, hw1, ?_, ?_, ?_⟩ <;> push_cast <;> omega
  · obtain ⟨r, hr⟩ := Int.eq_ofNat_of_zero_le hr0
    obtain ⟨c, hcn⟩ := Int.eq_ofNat_of_zero_le h0
    simp only [window, hr, hcn, CHANNEL_BUFFER_SIZE, Int.toNat_ofNat, Nat.cast_ofNat, htm] at *
    obtain ⟨k, rfl⟩ : ∃ k, c = k + 1 := ⟨c - 1, by omega⟩
    have hk : ((k + 1 : Nat) - 1 : Int).toNat = k := by omega
    have hr' : (((r : Int) + 1) % 100).toNat = (r + 1) % 100 := by omega
    rw [htm, hk, hr', List.range_succ_eq_map, List.map_cons, List.map_map]
    congr 1
    · have : (r + 0) % 100 = r := by omega
      rw [this]
    · apply List.map_congr_left
      intro i _
      have : (r + Nat.succ i) % 100 = ((r + 1) % 100 + i) % 100 := by omega
      simp only [Function.comp, this]
  · show s.full - 1 + 1 = s.full
    omega

theorem inv_channel_close {s : channel} (h : inv s) : inv (channel_close s) := h

theorem window_channel_close (s : channel) : window (channel_close s) = window s := rfl

/-- Every atomic call keeps the invariant. -/
theorem inv_step {s s' : channel} {c : call} {r : ret} (h : inv s)
    (hs : step s c = .returns r s') : inv s' := by
  cases c with
  | send v =>
    cases hcl : s.is_closed with
    | true =>
      simp only [step, channel_send_closed hcl, outcome.map, outcome.returns.injEq, id] at hs
      exact hs.2 ▸ h
    | false =>
      by_cases hc : s.count < CHANNEL_BUFFER_SIZE
      · obtain ⟨t, ht, hi, -⟩ := channel_send_open h hcl hc v
        simp only [step, ht, outcome.map, outcome.returns.injEq, id] at hs
        exact hs.2 ▸ hi
      · have hfull : s.count = CHANNEL_BUFFER_SIZE := le_antisymm h.2.2.1 (not_lt.mp hc)
        simp [step, channel_send_full h hcl hfull, outcome.map] at hs
  | receive =>
    by_cases hc : 0 < s.count
    · obtain ⟨d, t, ht, hi, -⟩ := channel_receive_nonempty h hc
      simp only [step, ht, outcome.map, outcome.returns.injEq, id] at hs
      exact hs.2 ▸ hi
    · have h0 : s.count = 0 := le_antisymm (not_lt.mp hc) h.2.1
      simp [step, channel_receive_empty h h0, outcome.map] at hs
  | close =>
    simp only [step, outcome.returns.injEq] at hs
    exact hs.2 ▸ inv_channel_close h

/-- Every reachable state satisfies the invariant. -/
theorem reachable_inv {s : channel} (h : reachable s) : inv s := by
  induction h with
  | create => exact inv_channel_init
  | step _ hs ih => exact inv_step ih hs

/-- The four ways in which an atomic call returns from a state that satisfies the
invariant: a refused send, an accepted send, a receive that pops, a close. -/
theorem step_returns {s s' : channel} {c : call} {r : ret} (h : inv s)
    (hs : step s c = .returns r s') :
    (∃ v, c = .send v ∧ r = .send false ∧ s' = s ∧ s.is_closed = true) ∨
    (∃ v, c = .send v ∧ r = .send true ∧ window s' = window s ++ [some v] ∧
      s.is_closed = false ∧ s'.is_closed = false ∧ s'.count = s.count + 1 ∧
      s'.empty + 1 = s.empty ∧ s'.full = s.full + 1) ∨
    (∃ d, c = .receive ∧ r = .receive d ∧ window s = d :: window s' ∧
      s'.is_closed = s.is_closed ∧ s'.count = s.count - 1 ∧
      s'.empty = s.empty + 1 ∧ s'.full + 1 = s.full) ∨
    (c = .close ∧ r = .close ∧ s' = channel_close s) := by
  cases c with
  | send v =>
    cases hcl : s.is_closed with
    | true =>
      simp only [step, channel_send_closed hcl, outcome.map, outcome.returns.injEq, id] at hs
      exact Or.inl ⟨v, rfl, hs.1.symm, hs.2.symm, rfl⟩
    | false =>
      by_cases hc : s.count < CHANNEL_BUFFER_SIZE
      · obtain ⟨t, ht, -, hw, ho, hcnt, he, hf⟩ := channel_send_open h hcl hc v
        simp only [step, ht, outcome.map, outcome.returns.injEq, id] at hs
        obtain ⟨rfl, rfl⟩ := hs
        exact Or.inr (Or.inl ⟨v, rfl, rfl, hw, rfl, ho, hcnt, he, hf⟩)
      · have hfull : s.count = CHANNEL_BUFFER_SIZE := le_antisymm h.2.2.1 (not_lt.mp hc)
        simp [step, channel_send_full h hcl hfull, outcome.map] at hs
  | receive =>
    by_cases hc : 0 < s.count
    · obtain ⟨d, t, ht, -, hw, hcl, hcnt, he, hf, -⟩ := channel_receive_nonempty h hc
      simp only [step, ht, outcome.map, outcome.returns.injEq, id] at hs
      obtain ⟨rfl, rfl⟩ := hs
      exact Or.inr (Or.inr (Or.inl ⟨d, rfl, rfl, hw, hcl, hcnt, he, hf⟩))
    · have h0 : s.count = 0 := le_antisymm (not_lt.mp hc) h.2.1
      simp [step, channel_receive_empty h h0, outcome.map] at hs
  | close =>
    simp only [step, outcome.returns.injEq] at hs
    exact Or.inr (Or.inr (Or.inr ⟨rfl, hs.1.symm, hs.2.symm⟩))

/-- No atomic call is undefined in a state that satisfies the invariant: the accesses
`buffer[write_index]` and `buffer[read_index]` are within bounds. -/
theorem step_defined {s : channel} (h : inv s) (c : call) : step s c ≠ .undefined := by
  cases c with
  | send v =>
    cases hcl : s.is_closed with
    | true => simp [step, channel_send_closed hcl, outcome.map]
    | false =>
      by_cases hc : s.count < CHANNEL_BUFFER_SIZE
      · obtain ⟨t, ht, -⟩ := channel_send_open h hcl hc v
        simp [step, ht, outcome.map]
      · have hfull : s.count = CHANNEL_BUFFER_SIZE := le_antisymm h.2.2.1 (not_lt.mp hc)
        simp [step, channel_send_full h hcl hfull, outcome.map]
  | receive =>
    by_cases hc : 0 < s.count
    · obtain ⟨d, t, ht, -⟩ := channel_receive_nonempty h hc
      simp [step, ht, outcome.map]
    · have h0 : s.count = 0 := le_antisymm (not_lt.mp hc) h.2.1
      simp [step, channel_receive_empty h h0, outcome.map]
  | close => simp [step]

/-- Unfolding of a run that returns: its first call returned and so did the rest. -/
theorem run_cons_returns {s s' : channel} {c : call} {cs : List call} {rs : List ret}
    (h : run s (c :: cs) = .returns rs s') :
    ∃ r t rs', step s c = .returns r t ∧ run t cs = .returns rs' s' ∧ rs = r :: rs' := by
  simp only [run] at h
  cases hst : step s c with
  | blocks => simp [hst] at h
  | undefined => simp [hst] at h
  | returns r t =>
    simp only [hst] at h
    cases hr : run t cs with
    | blocks => simp [hr, outcome.map] at h
    | undefined => simp [hr, outcome.map] at h
    | returns rs' u =>
      simp only [hr, outcome.map, outcome.returns.injEq, id] at h
      exact ⟨r, t, rs', rfl, by rw [hr, h.2], h.1.symm⟩

/-- Folding of a run: a first call that returns, then the rest. -/
theorem run_cons_of_returns {s t : channel} {c : call} {r : ret} (cs : List call)
    (h : step s c = .returns r t) :
    run s (c :: cs) = (run t cs).map (fun rs => r :: rs) id := by
  simp only [run, h]

/-- A run of two sequences, one after the other. -/
theorem run_append {s t u : channel} {cs ds : List call} {rs rs' : List ret}
    (h₁ : run s cs = .returns rs t) (h₂ : run t ds = .returns rs' u) :
    run s (cs ++ ds) = .returns (rs ++ rs') u := by
  induction cs generalizing s rs with
  | nil =>
    simp only [run, outcome.returns.injEq] at h₁
    obtain ⟨rfl, rfl⟩ := h₁
    simpa using h₂
  | cons c cs ih =>
    obtain ⟨r, m, rs₁, hst, hrun, rfl⟩ := run_cons_returns h₁
    rw [List.cons_append, run_cons_of_returns _ hst, ih hrun]
    simp [outcome.map]

/-- A run that returns ends in a state that satisfies the invariant. -/
theorem inv_run {s s' : channel} {cs : List call} {rs : List ret} (h : inv s)
    (hr : run s cs = .returns rs s') : inv s' := by
  induction cs generalizing s rs with
  | nil =>
    simp only [run, outcome.returns.injEq] at hr
    exact hr.2 ▸ h
  | cons c cs ih =>
    obtain ⟨r, t, rs', hst, hrun, -⟩ := run_cons_returns hr
    exact ih (inv_step h hst) hrun

/-- A run that returns from a reachable state ends in a reachable state. -/
theorem reachable_run {s s' : channel} {cs : List call} {rs : List ret} (h : reachable s)
    (hr : run s cs = .returns rs s') : reachable s' := by
  induction cs generalizing s rs with
  | nil =>
    simp only [run, outcome.returns.injEq] at hr
    exact hr.2 ▸ h
  | cons c cs ih =>
    obtain ⟨r, t, rs', hst, hrun, -⟩ := run_cons_returns hr
    exact ih (reachable.step h hst) hrun

/-- Every reachable state is the end of a run from a fresh channel. -/
theorem reachable_iff_run (s : channel) :
    reachable s ↔ ∃ cs rs, run channel_init cs = .returns rs s := by
  constructor
  · intro h
    induction h with
    | create => exact ⟨[], [], rfl⟩
    | @step s s' c r _ hs ih =>
      obtain ⟨cs, rs, hrun⟩ := ih
      refine ⟨cs ++ [c], rs ++ [r], run_append hrun ?_⟩
      simp [run, hs, outcome.map]
  · rintro ⟨cs, rs, h⟩
    exact reachable_run reachable.create h

theorem window_length (s : channel) : (window s).length = s.count.toNat := by
  simp [window]

theorem window_channel_init : window channel_init = [] := by
  simp [window, channel_init]

/-- Sends on an open channel with enough room all return `true` and append their values, in
order, to the queued cells. -/
theorem run_sends {s : channel} (vs : List Nat) (h : inv s) (ho : s.is_closed = false)
    (hc : s.count + vs.length ≤ CHANNEL_BUFFER_SIZE) :
    ∃ t, run s (vs.map call.send) = .returns (vs.map fun _ => ret.send true) t ∧ inv t ∧
      window t = window s ++ vs.map some ∧ t.is_closed = false ∧
      t.count = s.count + vs.length := by
  induction vs generalizing s with
  | nil => exact ⟨s, rfl, h, by simp, ho, by simp⟩
  | cons v vs ih =>
    simp only [List.length_cons, Nat.cast_add, Nat.cast_one] at hc
    obtain ⟨m, hm, hmi, hmw, hmo, hmc, -⟩ := channel_send_open h ho (by omega) v
    obtain ⟨t, ht, hti, htw, hto, htc⟩ := ih hmi hmo (by omega)
    refine ⟨t, ?_, hti, ?_, hto, ?_⟩
    · have hst : step s (.send v) = .returns (.send true) m := by
        simp [step, hm, outcome.map]
      rw [List.map_cons, run_cons_of_returns _ hst, ht]
      simp [outcome.map]
    · rw [htw, hmw]; simp
    · rw [htc, hmc]; simp only [List.length_cons, Nat.cast_add, Nat.cast_one]; omega

/-- Receives on a channel pop its queued cells, oldest first. -/
theorem run_receives {s : channel} (ds rest : List (Option Nat)) (h : inv s)
    (hw : window s = ds ++ rest) :
    ∃ t, run s (List.replicate ds.length call.receive) = .returns (ds.map ret.receive) t ∧
      inv t ∧ window t = rest ∧ t.is_closed = s.is_closed := by
  induction ds generalizing s with
  | nil => exact ⟨s, rfl, h, by simpa using hw, rfl⟩
  | cons d ds ih =>
    have hpos : 0 < s.count := by
      have := window_length s
      rw [hw] at this
      simp only [List.cons_append, List.length_cons] at this
      omega
    obtain ⟨d', m, hm, hmi, hmw, hmo, -⟩ := channel_receive_nonempty h hpos
    rw [hw, List.cons_append, List.cons.injEq] at hmw
    obtain ⟨rfl, hmw⟩ := hmw
    obtain ⟨t, ht, hti, htw, hto⟩ := ih hmi hmw.symm
    refine ⟨t, ?_, hti, htw, hto.trans hmo⟩
    have hst : step s .receive = .returns (.receive d) m := by
      simp [step, hm, outcome.map]
    rw [List.length_cons, List.replicate_succ, run_cons_of_returns _ hst, ht]
    simp [outcome.map]

/-! ## The contract -/

/-- C1 (FIFO law). For every list `vs` of at most `CHANNEL_BUFFER_SIZE` values, on a fresh
channel the calls `send v₁, ..., send v_N` followed by `N` calls of `receive` all return (none
blocks, none is undefined): every send returns `true` and the receives return
`v₁, ..., v_N` in this order. -/
theorem fifo_law (vs : List Nat) (hN : vs.length ≤ CHANNEL_BUFFER_SIZE) :
    ∃ s, run channel_init (vs.map call.send ++ List.replicate vs.length call.receive) =
      .returns ((vs.map fun _ => ret.send true) ++ vs.map fun v => ret.receive (some v)) s := by
  obtain ⟨t, ht, hti, htw, -, -⟩ :=
    run_sends vs inv_channel_init rfl (by simpa [channel_init] using hN)
  rw [window_channel_init, List.nil_append] at htw
  obtain ⟨u, hu, -⟩ := run_receives (vs.map some) [] hti (by simpa using htw)
  rw [List.length_map] at hu
  refine ⟨u, ?_⟩
  have := run_append ht hu
  simpa [List.map_map, Function.comp] using this

/-- Witness of `fifo_law`: three values through a fresh channel. -/
theorem fifo_law_witness :
    [10, 20, 30].length ≤ CHANNEL_BUFFER_SIZE ∧
    ∃ s, run channel_init ([10, 20, 30].map call.send ++
        List.replicate [10, 20, 30].length call.receive) =
      .returns (([10, 20, 30].map fun _ => ret.send true) ++
        [10, 20, 30].map fun v => ret.receive (some v)) s :=
  ⟨by decide, fifo_law [10, 20, 30] (by decide)⟩

theorem refines_init : refines channel_init queue_init :=
  ⟨inv_channel_init, window_channel_init, rfl⟩

/-- One call: the channel does what the queue of the specification does. -/
theorem step_refines {s : channel} {q : queue} (h : refines s q) (c : call) :
    match queue_step q c with
    | none => step s c = .blocks
    | some (r, q') => ∃ s', step s c = .returns r s' ∧ refines s' q' := by
  obtain ⟨hi, hw, hcl⟩ := h
  have hlen : s.count.toNat = q.items.length := by
    rw [← window_length, hw, List.length_map]
  have h0 : 0 ≤ s.count := hi.2.1
  have h1 : s.count ≤ CHANNEL_BUFFER_SIZE := hi.2.2.1
  cases c with
  | send v =>
    cases hq : q.closed with
    | true =>
      simp only [queue_step, hq, if_true]
      exact ⟨s, by simp [step, channel_send_closed (hcl.trans hq), outcome.map], hi, hw, hcl⟩
    | false =>
      have ho : s.is_closed = false := hcl.trans hq
      by_cases hfull : q.items.length = CHANNEL_BUFFER_SIZE
      · simp only [queue_step, hq, hfull, if_true, Bool.false_eq_true, if_false]
        have : s.count = CHANNEL_BUFFER_SIZE := by omega
        simp [step, channel_send_full hi ho this, outcome.map]
      · simp only [queue_step, hq, hfull, Bool.false_eq_true, if_false]
        obtain ⟨t, ht, hti, htw, hto, -⟩ := channel_send_open hi ho (by omega) v
        refine ⟨t, by simp [step, ht, outcome.map], hti, ?_, hto⟩
        rw [htw, hw]; simp
  | receive =>
    cases hitems : q.items with
    | nil =>
      simp only [queue_step, hitems]
      rw [hitems, List.length_nil] at hlen
      have : s.count = 0 := by omega
      simp [step, channel_receive_empty hi this, outcome.map]
    | cons v rest =>
      simp only [queue_step, hitems]
      rw [hitems, List.length_cons] at hlen
      obtain ⟨d, t, ht, hti, htw, hto, -⟩ := channel_receive_nonempty hi (by omega)
      rw [hw, hitems, List.map_cons, List.cons.injEq] at htw
      obtain ⟨rfl, htw⟩ := htw
      exact ⟨t, by simp [step, ht, outcome.map], hti, htw.symm, hto.trans hcl⟩
  | close =>
    simp only [queue_step]
    exact ⟨channel_close s, rfl, inv_channel_close hi, hw, rfl⟩

/-- A sequence of calls: the channel does what the queue of the specification does. -/
theorem run_refines {s : channel} {q : queue} (h : refines s q) (cs : List call) :
    match queue_run q cs with
    | none => run s cs = .blocks
    | some (rs, q') => ∃ s', run s cs = .returns rs s' ∧ refines s' q' := by
  induction cs generalizing s q with
  | nil => exact ⟨s, rfl, h⟩
  | cons c cs ih =>
    have hstep := step_refines h c
    cases hq : queue_step q c with
    | none =>
      simp only [hq] at hstep
      simp [queue_run, hq, run, hstep]
    | some p =>
      obtain ⟨r, q'⟩ := p
      simp only [hq] at hstep
      obtain ⟨t, ht, href⟩ := hstep
      have hrun := ih href
      cases hq' : queue_run q' cs with
      | none =>
        simp only [hq'] at hrun
        simp [queue_run, hq, hq', run, ht, hrun, outcome.map]
      | some p' =>
        obtain ⟨rs, q''⟩ := p'
        simp only [hq'] at hrun
        obtain ⟨u, hu, href'⟩ := hrun
        simp only [queue_run, hq, hq']
        exact ⟨u, by simp [run, ht, hu, outcome.map], href'⟩

/-- Conservation of values along a run: what was queued before plus what the sends that
returned `true` passed is what the receives returned plus what is queued after. -/
theorem run_conserves {s s' : channel} {cs : List call} {rs : List ret} (h : inv s)
    (hr : run s cs = .returns rs s') :
    window s ++ (accepted cs rs).map some = received rs ++ window s' := by
  induction cs generalizing s rs with
  | nil =>
    simp only [run, outcome.returns.injEq] at hr
    obtain ⟨rfl, rfl⟩ := hr
    simp [accepted, received]
  | cons c cs ih =>
    obtain ⟨r, t, rs', hst, hrun, rfl⟩ := run_cons_returns hr
    have hrec := ih (inv_step h hst) hrun
    rcases step_returns h hst with ⟨v, rfl, rfl, rfl, -⟩ | ⟨v, rfl, rfl, hw, -⟩ |
      ⟨d, rfl, rfl, hw, -⟩ | ⟨rfl, rfl, rfl⟩
    · simpa [accepted, received] using hrec
    · rw [hw] at hrec
      simpa [accepted, received] using hrec
    · rw [hw]
      simpa [accepted, received] using hrec
    · rw [window_channel_close] at hrec
      simpa [accepted, received] using hrec

/-- C2 (queue refinement). For every finite sequence of calls on a fresh channel, each run
atomically: the run blocks exactly when the run of the specification's list queue blocks,
otherwise it returns the results of the queue and ends in a state whose queued cells are the
queue's items; and when the run returns, the `k`-th value a receive returned is the value of
the `k`-th send that returned `true`, and the values received followed by the values still
queued are exactly the values accepted, in order. -/
theorem fifo_refinement (cs : List call) :
    (match queue_run queue_init cs with
      | none => run channel_init cs = .blocks
      | some (rs, q) => ∃ s, run channel_init cs = .returns rs s ∧ refines s q) ∧
    ∀ rs s, run channel_init cs = .returns rs s →
      received rs ++ window s = (accepted cs rs).map some ∧
      ∀ k, k < (received rs).length →
        (received rs)[k]? = ((accepted cs rs)[k]?).map some := by
  refine ⟨run_refines refines_init cs, ?_⟩
  intro rs s hr
  have hcons := run_conserves inv_channel_init hr
  rw [window_channel_init, List.nil_append] at hcons
  refine ⟨hcons.symm, ?_⟩
  intro k hk
  rw [← List.getElem?_map, hcons, List.getElem?_append_left hk]

/-- Witness of `fifo_refinement`: a run with a send refused after close. -/
theorem fifo_refinement_witness :
    run channel_init [.send 1, .send 2, .receive, .close, .send 3, .receive] =
      .returns [.send true, .send true, .receive (some 1), .close, .send false,
        .receive (some 2)] drained_closed ∧
    received [.send true, .send true, .receive (some 1), .close, .send false,
        .receive (some 2)] ++ window drained_closed =
      (accepted [.send 1, .send 2, .receive, .close, .send 3, .receive]
        [.send true, .send true, .receive (some 1), .close, .send false,
          .receive (some 2)]).map some :=
  ⟨by decide,
    ((fifo_refinement [.send 1, .send 2, .receive, .close, .send 3, .receive]).2
      [.send true, .send true, .receive (some 1), .close, .send false, .receive (some 2)]
      drained_closed (by decide)).1⟩

/-- C3 (capacity limit). On a fresh channel and with no receive in between, `C` sends
(`C = CHANNEL_BUFFER_SIZE`) all return `true`; before the `k`-th of them (`k < C` sends
done) there are `C - k > 0` free-slot permits; after them there is no free-slot permit and a
further send blocks; one receive then returns, and after it that send returns `true`. -/
theorem capacity_limit (vs : List Nat) (hC : vs.length = CHANNEL_BUFFER_SIZE) (v : Nat) :
    (∀ k, k < CHANNEL_BUFFER_SIZE →
      ∃ t, run channel_init ((vs.take k).map call.send) =
          .returns ((vs.take k).map fun _ => ret.send true) t ∧
        t.empty = CHANNEL_BUFFER_SIZE - k ∧ 0 < t.empty) ∧
    ∃ s, run channel_init (vs.map call.send) = .returns (vs.map fun _ => ret.send true) s ∧
      s.empty = 0 ∧ channel_send s v = .blocks ∧
      ∃ d s₁ s₂, channel_receive s = .returns d s₁ ∧ channel_send s₁ v = .returns true s₂ := by
  constructor
  · intro k hk
    have hlen : (vs.take k).length = k := by
      rw [List.length_take]; omega
    obtain ⟨t, ht, hti, -, -, htc⟩ :=
      run_sends (vs.take k) inv_channel_init rfl (by simp [channel_init]; omega)
    have he := hti.2.2.2.2.2.2.2.2.2
    simp only [channel_init, hlen, zero_add] at htc
    refine ⟨t, ht, ?_, ?_⟩ <;> omega
  · obtain ⟨s, hs, hsi, -, hso, hsc⟩ :=
      run_sends vs inv_channel_init rfl (by simp [channel_init]; omega)
    have he := hsi.2.2.2.2.2.2.2.2.2
    simp only [channel_init, zero_add, hC] at hsc
    refine ⟨s, hs, by omega, channel_send_full hsi hso hsc v, ?_⟩
    obtain ⟨d, s₁, h₁, hi₁, -, ho₁, hc₁, -⟩ :=
      channel_receive_nonempty hsi (by rw [hsc]; simp [CHANNEL_BUFFER_SIZE])
    obtain ⟨s₂, h₂, -⟩ := channel_send_open hi₁ (ho₁.trans hso) (by omega) v
    exact ⟨d, s₁, s₂, h₁, h₂⟩

/-- Witness of `capacity_limit`: a hundred sends of the value `7`, then a send of `8`. -/
theorem capacity_limit_witness :
    (List.replicate 100 7).length = CHANNEL_BUFFER_SIZE ∧
    ∃ s, run channel_init ((List.replicate 100 7).map call.send) =
        .returns ((List.replicate 100 7).map fun _ => ret.send true) s ∧
      s.empty = 0 ∧ channel_send s 8 = .blocks ∧
      ∃ d s₁ s₂, channel_receive s = .returns d s₁ ∧ channel_send s₁ 8 = .returns true s₂ :=
  ⟨List.length_replicate 100 7,
    (capacity_limit (List.replicate 100 7) (List.length_replicate 100 7) 8).2⟩

/-- C4 (send after close). In every state in which `is_closed` is true, reachable or not
and whatever `count` is, `channel_send` returns `false` for every value, without blocking,
and the state after the call is the state before it: buffer, indices, `count`, flag and both
permit counts. -/
theorem send_after_close (s : channel) (hc : s.is_closed = true) (v : Nat) :
    channel_send s v = .returns false s := by
  unfold channel_send
  rw [if_pos hc]

/-- Witness of `send_after_close`: a send on the full, closed channel. -/
theorem send_after_close_witness :
    full_closed.is_closed = true ∧ channel_send full_closed 5 = .returns false full_closed :=
  ⟨rfl, send_after_close full_closed rfl 5⟩

/-- C5 (queued values stay receivable). `channel_receive` does not read `is_closed`: in every
state a receive after close does what a receive does, followed by close. So from a
reachable state with `count > 0` both receives return the same value and the states differ by
close only; and after the sends of at most `C` values on a fresh channel and a close, as many
receives return these values in order. -/
theorem receive_after_close :
    (∀ s, channel_receive (channel_close s) = (channel_receive s).map id channel_close) ∧
    (∀ s, reachable s → 0 < s.count →
      ∃ d t, channel_receive s = .returns d t ∧
        channel_receive (channel_close s) = .returns d (channel_close t)) ∧
    ∀ vs : List Nat, vs.length ≤ CHANNEL_BUFFER_SIZE →
      ∃ t, run channel_init
          (vs.map call.send ++ call.close :: List.replicate vs.length call.receive) =
        .returns ((vs.map fun _ => ret.send true) ++
          ret.close :: vs.map fun v => ret.receive (some v)) t := by
  have hcomm : ∀ s, channel_receive (channel_close s) =
      (channel_receive s).map id channel_close := by
    intro s
    simp only [channel_receive, channel_close, sem_wait]
    split
    · simp [outcome.map]
    · simp only [receive_locked]
      split_ifs <;> simp [outcome.map, channel_close]
  refine ⟨hcomm, ?_, ?_⟩
  · intro s hs hc
    obtain ⟨d, t, ht, -⟩ := channel_receive_nonempty (reachable_inv hs) hc
    exact ⟨d, t, ht, by rw [hcomm, ht]; rfl⟩
  · intro vs hN
    obtain ⟨t, ht, hti, htw, -, -⟩ :=
      run_sends vs inv_channel_init rfl (by simpa [channel_init] using hN)
    rw [window_channel_init, List.nil_append] at htw
    obtain ⟨u, hu, -⟩ := run_receives (s := channel_close t) (vs.map some) []
      (inv_channel_close hti) (by simpa [window_channel_close] using htw)
    rw [List.length_map] at hu
    refine ⟨u, ?_⟩
    have hcl : run t (call.close :: List.replicate vs.length call.receive) =
        .returns (ret.close :: (vs.map some).map ret.receive) u := by
      rw [run_cons_of_returns _ (show step t .close = .returns .close (channel_close t) from rfl),
        hu]
      rfl
    have := run_append ht hcl
    simpa [List.map_map, Function.comp] using this

/-- Witness of `receive_after_close`: a receive on the channel holding one value. -/
theorem receive_after_close_witness :
    reachable one_queued ∧ 0 < one_queued.count ∧
    ∃ d t, channel_receive one_queued = .returns d t ∧
      channel_receive (channel_close one_queued) = .returns d (channel_close t) :=
  have hr : reachable one_queued :=
    reachable.step (c := .send 7) (r := .send true) reachable.create (by decide)
  ⟨hr, by decide, receive_after_close.2.1 one_queued hr (by decide)⟩

theorem reachable_one_queued : reachable one_queued :=
  reachable.step (c := .send 7) (r := .send true) reachable.create (by decide)

theorem reachable_close_one_queued : reachable (channel_close one_queued) :=
  reachable.step (c := .close) (r := .close) reachable_one_queued rfl

set_option maxRecDepth 100000 in
theorem run_full_closed : run channel_init (send_range 100 ++ [.close]) =
    .returns (List.replicate 100 (.send true) ++ [.close]) full_closed := by decide

theorem reachable_full_closed : reachable full_closed :=
  reachable_run reachable.create run_full_closed

/-- Along a run in which every send returned `true`, `count` grows by the number of sends
and shrinks by the number of receives. -/
theorem run_count {s s' : channel} {cs : List call} {rs : List ret} (h : inv s)
    (hr : run s cs = .returns rs s') (hok : ∀ r ∈ rs, r ≠ ret.send false) :
    s'.count + receives cs = s.count + sends cs := by
  induction cs generalizing s rs with
  | nil =>
    simp only [run, outcome.returns.injEq] at hr
    obtain ⟨-, rfl⟩ := hr
    simp [sends, receives]
  | cons c cs ih =>
    obtain ⟨r, t, rs', hst, hrun, rfl⟩ := run_cons_returns hr
    have hrec := ih (inv_step h hst) hrun fun r hr => hok r (List.mem_cons_of_mem _ hr)
    rcases step_returns h hst with ⟨v, rfl, rfl, rfl, -⟩ | ⟨v, rfl, rfl, -, -, -, hc, -⟩ |
      ⟨d, rfl, rfl, -, -, hc, -⟩ | ⟨rfl, rfl, rfl⟩
    · exact absurd rfl (hok _ (List.mem_cons_self _ _))
    · simp only [sends, receives, Nat.cast_add, Nat.cast_one]
      omega
    · simp only [sends, receives, Nat.cast_add, Nat.cast_one]
      omega
    · simpa [sends, receives, channel_close] using hrec

/-- C6, as stated, fails: the channel holding one value and then closed is reachable, and on
it the balanced sequence `send 8, receive` blocks nowhere (the send returns `false`, the
receive returns the queued value) yet takes `count` from `1` to `0`. -/
theorem balanced_count_counterexample :
    reachable (channel_close one_queued) ∧
    sends [.send 8, .receive] = receives [.send 8, .receive] ∧
    run (channel_close one_queued) [.send 8, .receive] =
      .returns [.send false, .receive (some 7)]
        { one_queued with
          read_index := 1, count := 0, empty := 100, full := 0, is_closed := true } ∧
    (channel_close one_queued).count = 1 :=
  ⟨reachable_close_one_queued, by decide, by decide, by decide⟩

/-- C6, amended (balanced sequences restore `count`). From every reachable state, a sequence
of calls with as many sends as receives, in which no call blocks and every send returns
`true`, ends with the value of `count` it started with. -/
theorem balanced_count (s s' : channel) (cs : List call) (rs : List ret) (hs : reachable s)
    (hr : run s cs = .returns rs s') (hok : ∀ r ∈ rs, r ≠ ret.send false)
    (hb : sends cs = receives cs) : s'.count = s.count := by
  have := run_count (reachable_inv hs) hr hok
  omega

/-- Witness of `balanced_count`: `send 8, receive` on the open channel holding one value. -/
theorem balanced_count_witness :
    reachable one_queued ∧
    run one_queued [.send 8, .receive] = .returns [.send true, .receive (some 7)]
      { one_queued with
        buffer := one_queued.buffer.set 1 (some 8), read_index := 1, write_index := 2 } ∧
    (∀ r ∈ [ret.send true, ret.receive (some 7)], r ≠ ret.send false) ∧
    sends [.send 8, .receive] = receives [.send 8, .receive] ∧
    ({ one_queued with
        buffer := one_queued.buffer.set 1 (some 8), read_index := 1,
        write_index := 2 } : channel).count = one_queued.count :=
  ⟨reachable_one_queued, by decide, by decide, by decide,
    balanced_count one_queued _ [.send 8, .receive] [.send true, .receive (some 7)]
      reachable_one_queued (by decide) (by decide) (by decide)⟩

/-- C7 (ring-buffer invariant). In every reachable state `0 ≤ count ≤ C`, both indices are
in `[0, C)` and `write_index = (read_index + count) mod C`; the buffer has its `C` cells, so
the cells `buffer[write_index]` and `buffer[read_index]` exist, and no call on that state is
undefined. -/
theorem ring_buffer_invariant (s : channel) (h : reachable s) :
    0 ≤ s.count ∧ s.count ≤ CHANNEL_BUFFER_SIZE ∧
    0 ≤ s.read_index ∧ s.read_index < CHANNEL_BUFFER_SIZE ∧
    0 ≤ s.write_index ∧ s.write_index < CHANNEL_BUFFER_SIZE ∧
    s.write_index = (s.read_index + s.count) % CHANNEL_BUFFER_SIZE ∧
    s.write_index = (s.read_index + s.count).tmod CHANNEL_BUFFER_SIZE ∧
    s.write_index.toNat < s.buffer.length ∧ s.read_index.toNat < s.buffer.length ∧
    ∀ c, step s c ≠ .undefined := by
  have hi := reachable_inv h
  have hd := step_defined hi
  obtain ⟨hl, h0, h1, hr0, hr1, hw0, hw1, hw, -, -⟩ := hi
  refine ⟨h0, h1, hr0, hr1, hw0, hw1, hw, ?_, ?_, ?_, hd⟩
  · rw [Int.tmod_eq_emod (by omega) (by simp [CHANNEL_BUFFER_SIZE])]
    exact hw
  · simp only [CHANNEL_BUFFER_SIZE, Nat.cast_ofNat] at *; omega
  · simp only [CHANNEL_BUFFER_SIZE, Nat.cast_ofNat] at *; omega

/-- Witness of `ring_buffer_invariant`: the full, closed channel. -/
theorem ring_buffer_invariant_witness :
    reachable full_closed ∧
    full_closed.write_index = (full_closed.read_index + full_closed.count) % CHANNEL_BUFFER_SIZE ∧
    ∀ c, step full_closed c ≠ .undefined :=
  ⟨reachable_full_closed,
    (ring_buffer_invariant full_closed reachable_full_closed).2.2.2.2.2.2.1,
    (ring_buffer_invariant full_closed reachable_full_closed).2.2.2.2.2.2.2.2.2.2⟩

/-- A send that returns `true` took one free-slot permit and added one filled-slot permit,
in every state. -/
theorem channel_send_true_permits {s s' : channel} {v : Nat}
    (h : channel_send s v = .returns true s') :
    s'.empty + 1 = s.empty ∧ s'.full = s.full + 1 := by
  simp only [channel_send, sem_wait, send_locked] at h
  split_ifs at h with h1 h2 h3 h4
  · simp at h
  · simp only [outcome.returns.injEq, true_and] at h
    subst h
    exact ⟨Nat.sub_add_cancel (Nat.pos_of_ne_zero h2), rfl⟩

/-- A send that returns `false` took the fast path: the state is untouched, in every
state. -/
theorem channel_send_false_state {s s' : channel} {v : Nat}
    (h : channel_send s v = .returns false s') : s' = s := by
  simp only [channel_send, sem_wait, send_locked] at h
  split_ifs at h with h1 h2 h3 h4
  · simp only [outcome.returns.injEq, true_and] at h
    exact h.symm
  · simp at h

/-- A receive that returns after finding `count ≠ 0` added one free-slot permit and took one
filled-slot permit, in every state. -/
theorem channel_receive_pop_permits {s s' : channel} {d : Option Nat}
    (h : channel_receive s = .returns d s') (hc : s.count ≠ 0) :
    s'.full + 1 = s.full ∧ s'.empty = s.empty + 1 := by
  simp only [channel_receive, sem_wait, receive_locked] at h
  split_ifs at h with h1 h2 h3
  · simp only [outcome.returns.injEq] at h
    obtain ⟨-, rfl⟩ := h
    exact ⟨Nat.sub_add_cancel (Nat.pos_of_ne_zero h1), rfl⟩

/-- No call of `channel_receive` writes `is_closed`. -/
theorem channel_receive_is_closed {s s' : channel} {d : Option Nat}
    (h : channel_receive s = .returns d s') : s'.is_closed = s.is_closed := by
  simp only [channel_receive, sem_wait, receive_locked] at h
  split_ifs at h with h1 h2 h3 h4
  · simp only [outcome.returns.injEq] at h
    obtain ⟨-, rfl⟩ := h
    rfl
  · simp only [outcome.returns.injEq] at h
    obtain ⟨-, rfl⟩ := h
    rfl

/-- C8 (permit accounting). In every state, a send that returns `true` lowers the free-slot
permit count `empty` by one and raises the filled-slot permit count `full` by one, a receive
that pops a value (`count ≠ 0`) does the inverse, and a send that returns `false` changes
neither. In every reachable state every receive that returns pops, `full = count`,
`empty = C - count`, `empty + full = C` and both counts are at most `C`. -/
theorem permit_accounting :
    (∀ s v s', channel_send s v = .returns true s' →
      s'.empty + 1 = s.empty ∧ s'.full = s.full + 1) ∧
    (∀ s d s', channel_receive s = .returns d s' → s.count ≠ 0 →
      s'.full + 1 = s.full ∧ s'.empty = s.empty + 1) ∧
    (∀ s v s', channel_send s v = .returns false s' →
      s'.empty = s.empty ∧ s'.full = s.full) ∧
    ∀ s, reachable s →
      (∀ d s', channel_receive s = .returns d s' →
        s'.full + 1 = s.full ∧ s'.empty = s.empty + 1) ∧
      (s.full : Int) = s.count ∧ (s.empty : Int) = CHANNEL_BUFFER_SIZE - s.count ∧
      s.empty + s.full = CHANNEL_BUFFER_SIZE ∧
      s.empty ≤ CHANNEL_BUFFER_SIZE ∧ s.full ≤ CHANNEL_BUFFER_SIZE := by
  refine ⟨fun s v s' h => channel_send_true_permits h,
    fun s d s' h hc => channel_receive_pop_permits h hc,
    fun s v s' h => by rw [channel_send_false_state h]; exact ⟨rfl, rfl⟩, ?_⟩
  intro s hs
  have hi := reachable_inv hs
  obtain ⟨-, h0, h1, -, -, -, -, -, hf, he⟩ := id hi
  refine ⟨?_, hf, by omega, by omega, by omega, by omega⟩
  intro d s' h
  refine channel_receive_pop_permits h ?_
  intro hc
  rw [channel_receive_empty hi hc] at h
  exact outcome.noConfusion h

/-- Witness of `permit_accounting`: the first send on a fresh channel. -/
theorem permit_accounting_witness :
    channel_send channel_init 7 = .returns true one_queued ∧
    one_queued.empty + 1 = channel_init.empty ∧ one_queued.full = channel_init.full + 1 :=
  ⟨by decide, permit_accounting.1 channel_init 7 one_queued (by decide)⟩

/-- C9, as stated, fails: the channel after a hundred sends and a close is reachable and
full (`count = C`), and a send on it does not block, it returns `false`. -/
theorem blocking_counterexample :
    reachable full_closed ∧ full_closed.count = CHANNEL_BUFFER_SIZE ∧
    channel_send full_closed 0 = .returns false full_closed ∧
    channel_send full_closed 0 ≠ .blocks :=
  ⟨reachable_full_closed, by decide, by decide, by decide⟩

/-- C9, amended (blocking conditions). In every reachable state a send blocks if and only if
the channel is open and full (`is_closed` false and `count = C`), and a receive blocks if and
only if the buffer is empty (`count = 0`); a receive after create and close blocks. -/
theorem blocking_conditions (s : channel) (h : reachable s) (v : Nat) :
    (channel_send s v = .blocks ↔ s.is_closed = false ∧ s.count = CHANNEL_BUFFER_SIZE) ∧
    (channel_receive s = .blocks ↔ s.count = 0) ∧
    channel_receive (channel_close channel_init) = .blocks := by
  have hi := reachable_inv h
  refine ⟨⟨?_, fun ⟨ho, hc⟩ => channel_send_full hi ho hc v⟩, ⟨?_, channel_receive_empty hi⟩,
    by decide⟩
  · intro hb
    cases hcl : s.is_closed with
    | true =>
      rw [channel_send_closed hcl] at hb
      exact outcome.noConfusion hb
    | false =>
      refine ⟨rfl, ?_⟩
      by_contra hne
      have hlt : s.count < CHANNEL_BUFFER_SIZE := lt_of_le_of_ne hi.2.2.1 hne
      obtain ⟨t, ht, -⟩ := channel_send_open hi hcl hlt v
      rw [ht] at hb
      exact outcome.noConfusion hb
  · intro hb
    by_contra hne
    have hpos : 0 < s.count := lt_of_le_of_ne hi.2.1 (Ne.symm hne)
    obtain ⟨d, t, ht, -⟩ := channel_receive_nonempty hi hpos
    rw [ht] at hb
    exact outcome.noConfusion hb

/-- Witness of `blocking_conditions`: the full, closed channel. -/
theorem blocking_conditions_witness :
    reachable full_closed ∧
    (channel_send full_closed 0 = .blocks ↔
      full_closed.is_closed = false ∧ full_closed.count = CHANNEL_BUFFER_SIZE) ∧
    (channel_receive full_closed = .blocks ↔ full_closed.count = 0) ∧
    channel_receive (channel_close channel_init) = .blocks :=
  ⟨reachable_full_closed, blocking_conditions full_closed reachable_full_closed 0⟩

/-- A call on a closed channel, in every state: if it returns, the channel is still
closed, and the call was not a send that returned `true`. -/
theorem step_closed {s s' : channel} {c : call} {r : ret} (hc : s.is_closed = true)
    (hs : step s c = .returns r s') : s'.is_closed = true ∧ r ≠ ret.send true := by
  cases c with
  | send v =>
    simp only [step, channel_send_closed hc, outcome.map, outcome.returns.injEq, id] at hs
    obtain ⟨rfl, rfl⟩ := hs
    exact ⟨hc, by simp⟩
  | receive =>
    cases hrec : channel_receive s with
    | blocks => simp [step, hrec, outcome.map] at hs
    | undefined => simp [step, hrec, outcome.map] at hs
    | returns d t =>
      simp only [step, hrec, outcome.map, outcome.returns.injEq, id] at hs
      obtain ⟨rfl, rfl⟩ := hs
      exact ⟨(channel_receive_is_closed hrec).trans hc, by simp⟩
  | close =>
    simp only [step, outcome.returns.injEq] at hs
    obtain ⟨rfl, rfl⟩ := hs
    exact ⟨rfl, by simp⟩

/-- C10 (close is one-way). In every state in which `is_closed` is true, a send, receive or
close that returns leaves `is_closed` true; so after any further sequence of calls the
channel is still closed, none of the sends of that sequence returned `true`, and every
later send returns `false`. -/
theorem close_one_way :
    (∀ s c r s', s.is_closed = true → step s c = .returns r s' → s'.is_closed = true) ∧
    ∀ s cs rs s', s.is_closed = true → run s cs = .returns rs s' →
      s'.is_closed = true ∧ (∀ r ∈ rs, r ≠ ret.send true) ∧
      ∀ v, channel_send s' v = .returns false s' := by
  refine ⟨fun s c r s' hc hs => (step_closed hc hs).1, ?_⟩
  intro s cs
  induction cs generalizing s with
  | nil =>
    intro rs s' hc hr
    simp only [run, outcome.returns.injEq] at hr
    obtain ⟨rfl, rfl⟩ := hr
    exact ⟨hc, by simp, channel_send_closed hc⟩
  | cons c cs ih =>
    intro rs s' hc hr
    obtain ⟨r, t, rs', hst, hrun, rfl⟩ := run_cons_returns hr
    obtain ⟨htc, hrne⟩ := step_closed hc hst
    obtain ⟨h1, h2, h3⟩ := ih t rs' s' htc hrun
    refine ⟨h1, ?_, h3⟩
    intro x hx
    rcases List.mem_cons.mp hx with rfl | hx
    · exact hrne
    · exact h2 x hx

/-- Witness of `close_one_way`: `send 8, receive` on a closed channel holding one value. -/
theorem close_one_way_witness :
    (channel_close one_queued).is_closed = true ∧
    run (channel_close one_queued) [.send 8, .receive] =
      .returns [.send false, .receive (some 7)]
        { one_queued with
          read_index := 1, count := 0, empty := 100, full := 0, is_closed := true } ∧
    ∀ v, channel_send
        { one_queued with
          read_index := 1, count := 0, empty := 100, full := 0, is_closed := true } v =
      .returns false
        { one_queued with
          read_index := 1, count := 0, empty := 100, full := 0, is_closed := true } :=
  ⟨rfl, by decide,
    (close_one_way.2 (channel_close one_queued) [.send 8, .receive]
      [.send false, .receive (some 7)] _ rfl (by decide)).2.2⟩

/-- C11 (initial state). When `malloc` succeeds `channel_create` returns a channel, and that
channel has `read_index = write_index = count = 0`, `is_closed = false`, `C = 100` free-slot
permits and no filled-slot permit; `channel_create` returns `NULL` if and only if `malloc`
failed. -/
theorem create_initial_state :
    (∃ s, channel_create true = some s) ∧
    (∀ ok s, channel_create ok = some s →
      ok = true ∧ s.read_index = 0 ∧ s.write_index = 0 ∧ s.count = 0 ∧ s.is_closed = false ∧
      s.empty = CHANNEL_BUFFER_SIZE ∧ s.empty = 100 ∧ s.full = 0) ∧
    ∀ ok, channel_create ok = none ↔ ok = false := by
  refine ⟨⟨channel_init, rfl⟩, ?_, ?_⟩
  · intro ok s h
    cases ok with
    | false => simp [channel_create] at h
    | true =>
      simp only [channel_create, if_true, Option.some.injEq] at h
      subst h
      exact ⟨rfl, rfl, rfl, rfl, rfl, rfl, rfl, rfl⟩
  · intro ok
    cases ok <;> simp [channel_create]

/-- Witness of `create_initial_state`: the channel of a successful `channel_create`. -/
theorem create_initial_state_witness :
    channel_create true = some channel_init ∧
    channel_init.read_index = 0 ∧ channel_init.write_index = 0 ∧ channel_init.count = 0 ∧
    channel_init.is_closed = false ∧ channel_init.empty = CHANNEL_BUFFER_SIZE ∧
    channel_init.empty = 100 ∧ channel_init.full = 0 :=
  ⟨rfl, (create_initial_state.2.1 true channel_init rfl).2⟩

/-- Every value of an accepted send is the value of a send of the sequence. -/
theorem mem_of_mem_accepted {v : Nat} {cs : List call} {rs : List ret}
    (h : v ∈ accepted cs rs) : call.send v ∈ cs := by
  induction cs generalizing rs with
  | nil => simp [accepted] at h
  | cons c cs ih =>
    cases rs with
    | nil => cases c <;> simp [accepted] at h
    | cons r rs =>
      cases c with
      | send w =>
        cases r with
        | send ok =>
          cases ok with
          | true =>
            simp only [accepted, List.mem_cons] at h
            rcases h with rfl | h
            · exact List.mem_cons_self _ _
            · exact List.mem_cons_of_mem _ (ih h)
          | false => exact List.mem_cons_of_mem _ (ih (by simpa [accepted] using h))
        | receive d => exact List.mem_cons_of_mem _ (ih (by simpa [accepted] using h))
        | close => exact List.mem_cons_of_mem _ (ih (by simpa [accepted] using h))
      | receive => exact List.mem_cons_of_mem _ (ih (by simpa [accepted] using h))
      | close => exact List.mem_cons_of_mem _ (ih (by simpa [accepted] using h))

/-- After a run from a fresh channel, every value a receive returned and every queued cell
is `some v` for the value `v` of an accepted send. -/
theorem run_values {cs : List call} {rs : List ret} {s : channel}
    (hr : run channel_init cs = .returns rs s) {d : Option Nat}
    (hd : d ∈ received rs ∨ d ∈ window s) : ∃ v, d = some v ∧ v ∈ accepted cs rs := by
  have hcons := run_conserves inv_channel_init hr
  rw [window_channel_init, List.nil_append] at hcons
  have hmem : d ∈ (accepted cs rs).map some := by
    rw [hcons]
    exact List.mem_append.mpr hd
  obtain ⟨v, hv, rfl⟩ := List.mem_map.mp hmem
  exact ⟨v, rfl, hv⟩

/-- A receive that returns from a state satisfying the invariant found `count ≠ 0` and
returned the oldest queued cell. -/
theorem channel_receive_returns {s s' : channel} {d : Option Nat} (h : inv s)
    (hr : channel_receive s = .returns d s') :
    0 < s.count ∧ window s = d :: window s' ∧
    d = s.buffer.getD s.read_index.toNat none := by
  by_cases hc : 0 < s.count
  · obtain ⟨d', t, ht, -, hw, -, -, -, -, hd⟩ := channel_receive_nonempty h hc
    rw [ht, outcome.returns.injEq] at hr
    obtain ⟨rfl, rfl⟩ := hr
    exact ⟨hc, hw, hd⟩
  · have h0 : s.count = 0 := le_antisymm (not_lt.mp hc) h.2.1
    rw [channel_receive_empty h h0] at hr
    exact outcome.noConfusion hr

/-- C12, as stated, fails: `send NULL` on a fresh channel returns `true` and leaves a
reachable state with `count = 1`, on which `channel_receive` returns `NULL`, the value that
was sent, having found `count ≠ 0`. -/
theorem receive_null_counterexample :
    channel_send channel_init NULL = .returns true null_queued ∧
    reachable null_queued ∧ null_queued.count = 1 ∧
    channel_receive null_queued =
      .returns (some NULL)
        { null_queued with read_index := 1, count := 0, empty := 100, full := 0 } :=
  ⟨by decide,
    reachable.step (c := .send NULL) (r := .send true) reachable.create (by decide),
    by decide, by decide⟩

/-- C12, amended (no empty-marker from the defensive branch). After every run of atomic calls
from a fresh channel, every value a receive returned is the value of one of the sends, and a
receive that completes on the state reached found `count > 0` and returns the value of one of
the sends; so when no send passes `NULL`, no receive returns `NULL`. -/
theorem receive_returns_sent (cs : List call) (rs : List ret) (s : channel)
    (hr : run channel_init cs = .returns rs s) :
    (∀ d ∈ received rs, ∃ v, d = some v ∧ call.send v ∈ cs) ∧
    (∀ d s', channel_receive s = .returns d s' →
      0 < s.count ∧ ∃ v, d = some v ∧ call.send v ∈ cs) ∧
    ((∀ v, call.send v ∈ cs → v ≠ NULL) →
      (∀ d ∈ received rs, d ≠ some NULL) ∧
      ∀ d s', channel_receive s = .returns d s' → d ≠ some NULL) := by
  have h1 : ∀ d ∈ received rs, ∃ v, d = some v ∧ call.send v ∈ cs := by
    intro d hd
    obtain ⟨v, rfl, hv⟩ := run_values hr (Or.inl hd)
    exact ⟨v, rfl, mem_of_mem_accepted hv⟩
  have h2 : ∀ d s', channel_receive s = .returns d s' →
      0 < s.count ∧ ∃ v, d = some v ∧ call.send v ∈ cs := by
    intro d s' hrec
    obtain ⟨hc, hw, -⟩ := channel_receive_returns (inv_run inv_channel_init hr) hrec
    obtain ⟨v, rfl, hv⟩ := run_values hr (Or.inr (hw ▸ List.mem_cons_self _ _))
    exact ⟨hc, v, rfl, mem_of_mem_accepted hv⟩
  refine ⟨h1, h2, fun hnn => ⟨?_, ?_⟩⟩
  · intro d hd hnull
    obtain ⟨v, hv, hmem⟩ := h1 d hd
    rw [hv, Option.some.injEq] at hnull
    exact hnn v hmem hnull
  · intro d s' hrec hnull
    obtain ⟨-, v, hv, hmem⟩ := h2 d s' hrec
    rw [hv, Option.some.injEq] at hnull
    exact hnn v hmem hnull

/-- Witness of `receive_returns_sent`: one value sent, then received. -/
theorem receive_returns_sent_witness :
    run channel_init [.send 7] = .returns [.send true] one_queued ∧
    ∀ d s', channel_receive one_queued = .returns d s' →
      0 < one_queued.count ∧ ∃ v, d = some v ∧ call.send v ∈ [call.send 7] :=
  ⟨by decide, (receive_returns_sent [.send 7] [.send true] one_queued (by decide)).2.1⟩

/-- C14 (the defensive branch is dead). In every reachable state, a filled-slot permit
(`full > 0`) implies `count > 0`: a receive that gets past `sem_wait` takes the pop path of
the locked section, and a receive that returns found `count > 0`; the same holds after
`channel_close`. Dually a free-slot permit (`empty > 0`) implies `count < C`. -/
theorem defensive_branch_unreachable (s : channel) (h : reachable s) :
    (0 < s.full → 0 < s.count) ∧
    (∀ f, sem_wait s.full = some f →
      receive_locked { s with full := f } =
        .returns (s.buffer.getD s.read_index.toNat none)
          { s with
            read_index := (s.read_index + 1).tmod CHANNEL_BUFFER_SIZE
            count := s.count - 1
            empty := sem_post s.empty
            full := f }) ∧
    (∀ d s', channel_receive s = .returns d s' → 0 < s.count) ∧
    (0 < (channel_close s).full → 0 < (channel_close s).count) ∧
    (∀ d s', channel_receive (channel_close s) = .returns d s' → 0 < s.count) ∧
    (0 < s.empty → s.count < CHANNEL_BUFFER_SIZE) ∧
    (∀ e, sem_wait s.empty = some e → s.count < CHANNEL_BUFFER_SIZE) := by
  have hi := reachable_inv h
  obtain ⟨-, h0, h1, hr0, hr1, -, -, -, hf, he⟩ := id hi
  simp only [CHANNEL_BUFFER_SIZE, Nat.cast_ofNat] at h0 h1 hr0 hr1 hf he
  refine ⟨by omega, ?_, ?_, ?_, ?_, ?_, ?_⟩
  · intro f hsf
    have hne : s.count ≠ 0 := by
      intro hc
      have : s.full = 0 := by omega
      simp [sem_wait, this] at hsf
    have hmin : s.count ≠ INT_MIN := by simp only [INT_MIN]; omega
    have hnb : ¬ (s.read_index < 0 ∨ (100 : Int) ≤ s.read_index) := by omega
    simp only [receive_locked, hne, hnb, hmin, CHANNEL_BUFFER_SIZE, Nat.cast_ofNat, if_false]
  · intro d s' hrec
    exact (channel_receive_returns hi hrec).1
  · show 0 < s.full → 0 < s.count
    omega
  · intro d s' hrec
    exact (channel_receive_returns (inv_channel_close hi) hrec).1
  · simp only [CHANNEL_BUFFER_SIZE, Nat.cast_ofNat]; omega
  · intro e hse
    have : s.empty ≠ 0 := by
      intro hz
      simp [sem_wait, hz] at hse
    simp only [CHANNEL_BUFFER_SIZE, Nat.cast_ofNat]; omega

/-- Witness of `defensive_branch_unreachable`: the channel holding one value. -/
theorem defensive_branch_unreachable_witness :
    reachable one_queued ∧ 0 < one_queued.full ∧ 0 < one_queued.count ∧
    sem_wait one_queued.full = some 0 ∧
    receive_locked { one_queued with full := 0 } =
      .returns (one_queued.buffer.getD one_queued.read_index.toNat none)
        { one_queued with
          read_index := (one_queued.read_index + 1).tmod CHANNEL_BUFFER_SIZE
          count := one_queued.count - 1
          empty := sem_post one_queued.empty
          full := 0 } :=
  ⟨reachable_one_queued, by decide,
    (defensive_branch_unreachable one_queued reachable_one_queued).1 (by decide), by decide,
    (defensive_branch_unreachable one_queued reachable_one_queued).2.1 0 (by decide)⟩

/-- C15 (re-check under the lock). Split `channel_send` into the advisory check, `sem_wait`
on the free-slot permits and the locked section. If the check saw `is_closed = false`, the
permit was there, and `channel_close` runs before the locked section (after the `sem_wait` or
just before it), then the send, which would otherwise run its locked section, returns `false` and leaves
exactly the state that `channel_close` alone leaves: no cell written, indices and `count` unchanged, no filled-slot
permit added, and the free-slot permit count back at its value before the `sem_wait`. -/
theorem send_recheck_undoes (s : channel) (v e : Nat) (ho : s.is_closed = false)
    (hp : sem_wait s.empty = some e) :
    channel_send s v = send_locked { s with empty := e } v ∧
    send_locked (channel_close { s with empty := e }) v = .returns false (channel_close s) ∧
    sem_wait (channel_close s).empty = some e ∧
    send_locked { channel_close s with empty := e } v = .returns false (channel_close s) ∧
    (channel_close s).buffer = s.buffer ∧
    (channel_close s).read_index = s.read_index ∧
    (channel_close s).write_index = s.write_index ∧
    (channel_close s).count = s.count ∧
    (channel_close s).full = s.full ∧
    (channel_close s).empty = s.empty := by
  have hne : s.empty ≠ 0 := by
    intro hz
    simp [sem_wait, hz] at hp
  have he : e = s.empty - 1 := by
    simp only [sem_wait, hne, if_false, Option.some.injEq] at hp
    exact hp.symm
  have hback : sem_post e = s.empty := by
    rw [he, sem_post]
    exact Nat.sub_add_cancel (Nat.pos_of_ne_zero hne)
  refine ⟨?_, ?_, hp, ?_, rfl, rfl, rfl, rfl, rfl, rfl⟩
  · simp only [channel_send, ho, hp, Bool.false_eq_true, if_false]
  · simp only [send_locked, channel_close, if_true, hback]
  · simp only [send_locked, channel_close, if_true, hback]

/-- Witness of `send_recheck_undoes`: a close that overtakes the first send on a fresh
channel. -/
theorem send_recheck_undoes_witness :
    channel_init.is_closed = false ∧ sem_wait channel_init.empty = some 99 ∧
    send_locked (channel_close { channel_init with empty := 99 }) 7 =
      .returns false (channel_close channel_init) :=
  ⟨rfl, by decide, (send_recheck_undoes channel_init 7 99 rfl (by decide)).2.1⟩

/-- C16 (close changes only the flag). In every state `channel_close` sets `is_closed` and
leaves the buffer, both indices, `count` and both permit counts as they were; a `sem_wait`
that could not proceed before close cannot proceed after it, so a blocked receive stays
blocked; and closing twice is closing once. -/
theorem close_frame (s : channel) :
    (channel_close s).is_closed = true ∧
    (channel_close s).buffer = s.buffer ∧
    (channel_close s).read_index = s.read_index ∧
    (channel_close s).write_index = s.write_index ∧
    (channel_close s).count = s.count ∧
    (channel_close s).empty = s.empty ∧
    (channel_close s).full = s.full ∧
    sem_wait (channel_close s).empty = sem_wait s.empty ∧
    sem_wait (channel_close s).full = sem_wait s.full ∧
    (channel_receive s = .blocks → channel_receive (channel_close s) = .blocks) ∧
    channel_close (channel_close s) = channel_close s := by
  refine ⟨rfl, rfl, rfl, rfl, rfl, rfl, rfl, rfl, rfl, ?_, rfl⟩
  intro hb
  have hz : s.full = 0 := by
    by_contra hne
    simp only [channel_receive, sem_wait, hne, if_false, receive_locked] at hb
    split_ifs at hb
  simp [channel_receive, channel_close, sem_wait, hz]

/-- Witness of `close_frame`: a receive blocked on a fresh channel stays blocked. -/
theorem close_frame_witness :
    channel_receive channel_init = .blocks ∧
    channel_receive (channel_close channel_init) = .blocks :=
  ⟨by decide, (close_frame channel_init).2.2.2.2.2.2.2.2.2.1 (by decide)⟩

/-- C17 (single-step postconditions). For every open state of the data model (the buffer
has its `C` cells, `write_index` is in `[0, C)`) with `count < C` and a free-slot permit, a
send returns `true`, stores the value at the old `write_index`, advances `write_index` by one
modulo `C`, adds one to `count` and leaves `read_index`, `is_closed` and every other cell
unchanged. For every state with `read_index` in `[0, C)`, `count > 0` and a filled-slot
permit, a receive returns the cell at the old `read_index`, advances `read_index` by one
modulo `C`, takes one from `count` and leaves `write_index`, `is_closed` and the whole buffer
unchanged. -/
theorem single_step_postconditions :
    (∀ (s : channel) (v : Nat),
      s.is_closed = false → s.count < CHANNEL_BUFFER_SIZE → 0 < s.empty →
      s.buffer.length = CHANNEL_BUFFER_SIZE →
      0 ≤ s.write_index → s.write_index < CHANNEL_BUFFER_SIZE →
      ∃ s', channel_send s v = .returns true s' ∧
        s'.buffer[s.write_index.toNat]? = some (some v) ∧
        s'.write_index = (s.write_index + 1) % CHANNEL_BUFFER_SIZE ∧
        s'.count = s.count + 1 ∧
        s'.read_index = s.read_index ∧ s'.is_closed = s.is_closed ∧
        s'.buffer.length = s.buffer.length ∧
        ∀ i, i ≠ s.write_index.toNat → s'.buffer[i]? = s.buffer[i]?) ∧
    ∀ s : channel, 0 < s.count → 0 < s.full →
      0 ≤ s.read_index → s.read_index < CHANNEL_BUFFER_SIZE →
      ∃ d s', channel_receive s = .returns d s' ∧
        d = s.buffer.getD s.read_index.toNat none ∧
        s'.read_index = (s.read_index + 1) % CHANNEL_BUFFER_SIZE ∧
        s'.count = s.count - 1 ∧
        s'.write_index = s.write_index ∧ s'.is_closed = s.is_closed ∧
        s'.buffer = s.buffer := by
  constructor
  · intro s v ho hc he hl hw0 hw1
    simp only [CHANNEL_BUFFER_SIZE, Nat.cast_ofNat] at hc hl hw0 hw1
    have hemp : s.empty ≠ 0 := by omega
    have hmax : s.count ≠ INT_MAX := by simp only [INT_MAX]; omega
    have hnb : ¬ (s.write_index < 0 ∨ (100 : Int) ≤ s.write_index) := by omega
    have htm : (s.write_index + 1).tmod 100 = (s.write_index + 1) % 100 :=
      Int.tmod_eq_emod (by omega) (by omega)
    refine ⟨{ s with
        buffer := s.buffer.set s.write_index.toNat (some v)
        write_index := (s.write_index + 1).tmod CHANNEL_BUFFER_SIZE
        count := s.count + 1
        empty := s.empty - 1
        full := sem_post s.full }, ?_, ?_, ?_, rfl, rfl, ho.symm ▸ ho, ?_, ?_⟩
    · simp only [channel_send, ho, sem_wait, hemp, send_locked, hnb, hmax, CHANNEL_BUFFER_SIZE,
        Nat.cast_ofNat, if_false, Bool.false_eq_true]
    · have : s.write_index.toNat < s.buffer.length := by omega
      simp [List.getElem?_set, this]
    · simp only [CHANNEL_BUFFER_SIZE, Nat.cast_ofNat, htm]
    · simp
    · intro i hi
      simp [List.getElem?_set, Ne.symm hi]
  · intro s hc hf hr0 hr1
    simp only [CHANNEL_BUFFER_SIZE, Nat.cast_ofNat] at hr0 hr1
    have hfull : s.full ≠ 0 := by omega
    have hne : s.count ≠ 0 := by omega
    have hmin : s.count ≠ INT_MIN := by simp only [INT_MIN]; omega
    have hnb : ¬ (s.read_index < 0 ∨ (100 : Int) ≤ s.read_index) := by omega
    have htm : (s.read_index + 1).tmod 100 = (s.read_index + 1) % 100 :=
      Int.tmod_eq_emod (by omega) (by omega)
    refine ⟨s.buffer.getD s.read_index.toNat none,
      { s with
        read_index := (s.read_index + 1).tmod CHANNEL_BUFFER_SIZE
        count := s.count - 1
        empty := sem_post s.empty
        full := s.full - 1 }, ?_, rfl, ?_, rfl, rfl, rfl, rfl⟩
    · simp only [channel_receive, sem_wait, hfull, receive_locked, hne, hnb, hmin,
        CHANNEL_BUFFER_SIZE, Nat.cast_ofNat, if_false]
    · simp only [CHANNEL_BUFFER_SIZE, Nat.cast_ofNat, htm]

/-- Witness of `single_step_postconditions`: a send on the channel holding one value. -/
theorem single_step_postconditions_witness :
    one_queued.is_closed = false ∧ one_queued.count < CHANNEL_BUFFER_SIZE ∧
    0 < one_queued.empty ∧ one_queued.buffer.length = CHANNEL_BUFFER_SIZE ∧
    0 ≤ one_queued.write_index ∧ one_queued.write_index < CHANNEL_BUFFER_SIZE ∧
    ∃ s', channel_send one_queued 8 = .returns true s' ∧
      s'.buffer[one_queued.write_index.toNat]? = some (some 8) ∧
      s'.write_index = (one_queued.write_index + 1) % CHANNEL_BUFFER_SIZE ∧
      s'.count = one_queued.count + 1 ∧
      s'.read_index = one_queued.read_index ∧ s'.is_closed = one_queued.is_closed ∧
      s'.buffer.length = one_queued.buffer.length ∧
      ∀ i, i ≠ one_queued.write_index.toNat → s'.buffer[i]? = one_queued.buffer[i]? :=
  ⟨rfl, by decide, by decide, by decide, by decide, by decide,
    single_step_postconditions.1 one_queued 8 rfl (by decide) (by decide) (by decide)
      (by decide) (by decide)⟩

/-- The state an accepted send leaves, in full. -/
theorem channel_send_open_eq {s : channel} (h : inv s) (ho : s.is_closed = false)
    (hc : s.count < CHANNEL_BUFFER_SIZE) (v : Nat) :
    channel_send s v = .returns true
      { s with
        buffer := s.buffer.set s.write_index.toNat (some v)
        write_index := (s.write_index + 1).tmod CHANNEL_BUFFER_SIZE
        count := s.count + 1
        empty := s.empty - 1
        full := sem_post s.full } := by
  obtain ⟨-, h0, h1, -, -, hw0, hw1, -, -, he⟩ := h
  simp only [CHANNEL_BUFFER_SIZE, Nat.cast_ofNat] at h0 h1 hw0 hw1 he hc
  have hemp : s.empty ≠ 0 := by omega
  have hmax : s.count ≠ INT_MAX := by simp only [INT_MAX]; omega
  have hnb : ¬ (s.write_index < 0 ∨ (100 : Int) ≤ s.write_index) := by omega
  simp only [channel_send, ho, sem_wait, hemp, send_locked, hnb, hmax, CHANNEL_BUFFER_SIZE,
    Nat.cast_ofNat, if_false, Bool.false_eq_true]

/-- The state a receive that pops leaves, in full. -/
theorem channel_receive_nonempty_eq {s : channel} (h : inv s) (hc : 0 < s.count) :
    channel_receive s = .returns (s.buffer.getD s.read_index.toNat none)
      { s with
        read_index := (s.read_index + 1).tmod CHANNEL_BUFFER_SIZE
        count := s.count - 1
        empty := sem_post s.empty
        full := s.full - 1 } := by
  obtain ⟨-, h0, h1, hr0, hr1, -, -, -, hf, -⟩ := h
  simp only [CHANNEL_BUFFER_SIZE, Nat.cast_ofNat] at h0 h1 hr0 hr1 hf
  have hfull : s.full ≠ 0 := by omega
  have hne : s.count ≠ 0 := by omega
  have hmin : s.count ≠ INT_MIN := by simp only [INT_MIN]; omega
  have hnb : ¬ (s.read_index < 0 ∨ (100 : Int) ≤ s.read_index) := by omega
  simp only [channel_receive, sem_wait, hfull, receive_locked, hne, hnb, hmin,
    CHANNEL_BUFFER_SIZE, Nat.cast_ofNat, if_false]

/-- One call keeps this: every occupied cell is queued or holds a value that a receive
returned (`H` lists the values returned so far). -/
theorem step_occupied {s s' : channel} {c : call} {r : ret} {H : List (Option Nat)}
    (h : inv s)
    (hocc : ∀ i v, s.buffer[i]? = some (some v) → in_window s i ∨ some v ∈ H)
    (hs : step s c = .returns r s') :
    ∀ i v, s'.buffer[i]? = some (some v) → in_window s' i ∨ some v ∈ H ++ received [r] := by
  obtain ⟨hl, h0, h1, hr0, hr1, hw0, hw1, hw, -, -⟩ := id h
  simp only [CHANNEL_BUFFER_SIZE, Nat.cast_ofNat] at hl h0 h1 hr0 hr1 hw0 hw1 hw
  cases c with
  | send x =>
    cases hcl : s.is_closed with
    | true =>
      simp only [step, channel_send_closed hcl, outcome.map, outcome.returns.injEq, id] at hs
      obtain ⟨rfl, rfl⟩ := hs
      intro i v hv
      rcases hocc i v hv with hin | hin
      · exact Or.inl hin
      · exact Or.inr (List.mem_append_left _ hin)
    | false =>
      by_cases hc : s.count < CHANNEL_BUFFER_SIZE
      · simp only [step, channel_send_open_eq h hcl hc x, outcome.map, outcome.returns.injEq,
          id] at hs
        obtain ⟨rfl, rfl⟩ := hs
        simp only [CHANNEL_BUFFER_SIZE, Nat.cast_ofNat] at hc
        intro i v hv
        simp only [List.getElem?_set] at hv
        by_cases hiw : s.write_index.toNat = i
        · left
          refine ⟨s.count.toNat, ?_, ?_⟩
          · simp only [List.mem_range]; omega
          · simp only [CHANNEL_BUFFER_SIZE]; omega
        · rw [if_neg hiw] at hv
          rcases hocc i v hv with ⟨k, hk, hik⟩ | hin
          · left
            refine ⟨k, ?_, hik⟩
            simp only [List.mem_range] at hk ⊢
            omega
          · exact Or.inr (List.mem_append_left _ hin)
      · have hfull : s.count = CHANNEL_BUFFER_SIZE := le_antisymm h.2.2.1 (not_lt.mp hc)
        simp [step, channel_send_full h hcl hfull, outcome.map] at hs
  | receive =>
    by_cases hc : 0 < s.count
    · simp only [step, channel_receive_nonempty_eq h hc, outcome.map, outcome.returns.injEq,
        id] at hs
      obtain ⟨rfl, rfl⟩ := hs
      have htm : (s.read_index + 1).tmod 100 = (s.read_index + 1) % 100 :=
        Int.tmod_eq_emod (by omega) (by omega)
      intro i v hv
      rcases hocc i v hv with ⟨k, hk, hik⟩ | hin
      · simp only [List.mem_range, CHANNEL_BUFFER_SIZE] at hk hik
        by_cases hk0 : k = 0
        · right
          have hir : s.read_index.toNat = i := by omega
          simp only [received, List.mem_append, List.mem_singleton]
          right
          rw [List.getD_eq_getElem?_getD, hir, hv]
          rfl
        · left
          refine ⟨k - 1, ?_, ?_⟩
          · simp only [List.mem_range]; omega
          · simp only [CHANNEL_BUFFER_SIZE, Nat.cast_ofNat, htm]; omega
      · exact Or.inr (List.mem_append_left _ hin)
    · have hz : s.count = 0 := le_antisymm (not_lt.mp hc) h.2.1
      simp [step, channel_receive_empty h hz, outcome.map] at hs
  | close =>
    simp only [step, outcome.returns.injEq] at hs
    obtain ⟨rfl, rfl⟩ := hs
    intro i v hv
    rcases hocc i v hv with hin | hin
    · exact Or.inl hin
    · exact Or.inr (List.mem_append_left _ hin)

theorem received_cons (r : ret) (rs : List ret) :
    received (r :: rs) = received [r] ++ received rs := by
  cases r <;> simp [received]

/-- A run keeps this: every occupied cell is queued or holds a value that a receive
returned. -/
theorem run_occupied {s s' : channel} {cs : List call} {rs : List ret} {H : List (Option Nat)}
    (h : inv s)
    (hocc : ∀ i v, s.buffer[i]? = some (some v) → in_window s i ∨ some v ∈ H)
    (hr : run s cs = .returns rs s') :
    ∀ i v, s'.buffer[i]? = some (some v) → in_window s' i ∨ some v ∈ H ++ received rs := by
  induction cs generalizing s rs H with
  | nil =>
    simp only [run, outcome.returns.injEq] at hr
    obtain ⟨rfl, rfl⟩ := hr
    simpa [received] using hocc
  | cons c cs ih =>
    obtain ⟨r, t, rs', hst, hrun, rfl⟩ := run_cons_returns hr
    have := ih (inv_step h hst) (step_occupied h hocc hst) hrun
    rw [received_cons, ← List.append_assoc]
    exact this

/-- After a run from a fresh channel, the `k`-th queued cell holds the value of the accepted
send number `n + k`, where `n` is the number of values received so far. -/
theorem window_cells {cs : List call} {rs : List ret} {s : channel}
    (hr : run channel_init cs = .returns rs s) (k : Nat) (hk : (k : Int) < s.count) :
    ∃ v, s.buffer[(s.read_index.toNat + k) % CHANNEL_BUFFER_SIZE]? = some (some v) ∧
      (accepted cs rs)[(received rs).length + k]? = some v := by
  have hcons := run_conserves inv_channel_init hr
  rw [window_channel_init, List.nil_append] at hcons
  have hkc : k < s.count.toNat := by omega
  have h1 : (received rs ++ window s)[(received rs).length + k]? =
      some (s.buffer.getD ((s.read_index.toNat + k) % CHANNEL_BUFFER_SIZE) none) := by
    rw [List.getElem?_append_right (Nat.le_add_right _ _), Nat.add_sub_cancel_left]
    simp [window, List.getElem?_range hkc]
  rw [← hcons, List.getElem?_map] at h1
  cases hacc : (accepted cs rs)[(received rs).length + k]? with
  | none => simp [hacc] at h1
  | some v =>
    refine ⟨v, ?_, rfl⟩
    simp only [hacc, Option.map_some', Option.some.injEq, List.getD_eq_getElem?_getD] at h1
    cases hcell : s.buffer[(s.read_index.toNat + k) % CHANNEL_BUFFER_SIZE]? with
    | none => simp [hcell] at h1
    | some x =>
      simp only [hcell, Option.getD_some] at h1
      rw [← h1]

/-- C18, as stated, fails: after `send 7, receive` the channel is empty (`count = 0`, no cell
is in the window) and the cell `0` still holds the value `7`. -/
theorem occupied_window_counterexample :
    run channel_init [.send 7, .receive] =
      .returns [.send true, .receive (some 7)] received_one ∧
    reachable received_one ∧ received_one.count = 0 ∧
    received_one.buffer[0]? = some (some 7) ∧ ¬ in_window received_one 0 :=
  ⟨by decide, reachable_run reachable.create (show run channel_init [.send 7, .receive] =
      .returns [.send true, .receive (some 7)] received_one by decide),
    by decide, by decide, by decide⟩

/-- C18, amended (occupied cells). After every run of atomic calls from a fresh channel, every
occupied cell is in the window `{(read_index + k) mod C | 0 ≤ k < count}` or holds a value
that a receive of the run returned (`channel_receive` does not empty the cell it reads), and
every cell of the window is occupied. -/
theorem occupied_window (cs : List call) (rs : List ret) (s : channel)
    (hr : run channel_init cs = .returns rs s) :
    (∀ i v, s.buffer[i]? = some (some v) → in_window s i ∨ some v ∈ received rs) ∧
    ∀ i, in_window s i → ∃ v, s.buffer[i]? = some (some v) := by
  constructor
  · have hinit : ∀ i v, channel_init.buffer[i]? = some (some v) →
        in_window channel_init i ∨ some v ∈ ([] : List (Option Nat)) := by
      intro i v hv
      simp [channel_init, List.getElem?_replicate] at hv
    simpa using run_occupied inv_channel_init hinit hr
  · rintro i ⟨k, hk, rfl⟩
    have h0 : 0 ≤ s.count := (inv_run inv_channel_init hr).2.1
    rw [List.mem_range] at hk
    obtain ⟨v, hv, -⟩ := window_cells hr k (by omega)
    exact ⟨v, hv⟩

/-- Witness of `occupied_window`: the channel after `send 7, receive`. -/
theorem occupied_window_witness :
    run channel_init [.send 7, .receive] =
      .returns [.send true, .receive (some 7)] received_one ∧
    ∀ i v, received_one.buffer[i]? = some (some v) →
      in_window received_one i ∨ some v ∈ received [.send true, .receive (some 7)] :=
  ⟨by decide,
    (occupied_window [.send 7, .receive] [.send true, .receive (some 7)] received_one
      (by decide)).1⟩

/-- C19 (receive never reads an unwritten cell). After every run of atomic calls from a fresh
channel, whose buffer no one has written, the `k`-th of the `count` queued cells, at index
`(read_index + k) mod C`, holds the value of an accepted send: the accepted send number
`n + k`, where `n` values have been received; and a receive that returns reads at
`read_index` a cell `some v` for a value `v` that was sent and accepted. -/
theorem receive_reads_written (cs : List call) (rs : List ret) (s : channel)
    (hr : run channel_init cs = .returns rs s) :
    (∀ i : Nat, i < CHANNEL_BUFFER_SIZE → channel_init.buffer[i]? = some none) ∧
    (∀ k : Nat, (k : Int) < s.count →
      ∃ v, s.buffer[(s.read_index.toNat + k) % CHANNEL_BUFFER_SIZE]? = some (some v) ∧
        (accepted cs rs)[(received rs).length + k]? = some v ∧ call.send v ∈ cs) ∧
    ∀ d s', channel_receive s = .returns d s' →
      ∃ v, d = some v ∧ s.buffer[s.read_index.toNat]? = some (some v) ∧
        v ∈ accepted cs rs ∧ call.send v ∈ cs := by
  have hi := inv_run inv_channel_init hr
  refine ⟨?_, ?_, ?_⟩
  · intro i hlt
    simp [channel_init, List.getElem?_replicate, hlt]
  · intro k hk
    obtain ⟨v, hv, hacc⟩ := window_cells hr k hk
    exact ⟨v, hv, hacc, mem_of_mem_accepted (List.getElem?_mem hacc)⟩
  · intro d s' hrec
    obtain ⟨hc, -, hd⟩ := channel_receive_returns hi hrec
    obtain ⟨v, hv, hacc⟩ := window_cells hr 0 (by simpa using hc)
    have hr1 := hi.2.2.2.2.1
    have hr0 := hi.2.2.2.1
    have hidx : (s.read_index.toNat + 0) % CHANNEL_BUFFER_SIZE = s.read_index.toNat := by
      simp only [CHANNEL_BUFFER_SIZE, Nat.cast_ofNat] at hr1 ⊢
      omega
    rw [hidx] at hv
    refine ⟨v, ?_, hv, List.getElem?_mem hacc,
      mem_of_mem_accepted (List.getElem?_mem hacc)⟩
    rw [hd, List.getD_eq_getElem?_getD, hv]
    rfl

/-- Witness of `receive_reads_written`: the channel holding one value. -/
theorem receive_reads_written_witness :
    run channel_init [.send 7] = .returns [.send true] one_queued ∧
    ∀ d s', channel_receive one_queued = .returns d s' →
      ∃ v, d = some v ∧ one_queued.buffer[one_queued.read_index.toNat]? = some (some v) ∧
        v ∈ accepted [.send 7] [.send true] ∧ call.send v ∈ [call.send 7] :=
  ⟨by decide, (receive_reads_written [.send 7] [.send true] one_queued (by decide)).2.2⟩

/-- The locked part of `channel_send` is its critical section followed by one `sem_post`. -/
theorem send_locked_eq (ch : channel) (v : Nat) :
    send_locked ch v =
      match send_critical ch v with
      | none => .undefined
      | some (.post, c) => .returns true { c with full := sem_post c.full }
      | some (_, c) => .returns false { c with empty := sem_post c.empty } := by
  simp only [send_locked, send_critical]
  split_ifs <;> rfl

/-- The locked part of `channel_receive` is its critical section followed by one
`sem_post`. -/
theorem receive_locked_eq (ch : channel) :
    receive_locked ch =
      match receive_critical ch with
      | none => .undefined
      | some (.post d, c) => .returns d { c with empty := sem_post c.empty }
      | some (_, c) => .returns (some NULL) { c with full := sem_post c.full } := by
  simp only [receive_locked, receive_critical]
  split_ifs <;> rfl

/-- Writing at `write_index` appends to the queued cells. -/
theorem window_push (ch : channel) (v : Nat) (hl : ch.buffer.length = CHANNEL_BUFFER_SIZE)
    (h0 : 0 ≤ ch.count) (hc : ch.count < CHANNEL_BUFFER_SIZE) (hr0 : 0 ≤ ch.read_index)
    (hw : ch.write_index = (ch.read_index + ch.count) % CHANNEL_BUFFER_SIZE) :
    window { ch with
        buffer := ch.buffer.set ch.write_index.toNat (some v)
        write_index := (ch.write_index + 1).tmod CHANNEL_BUFFER_SIZE
        count := ch.count + 1 } = window ch ++ [some v] := by
  simp only [CHANNEL_BUFFER_SIZE, Nat.cast_ofNat] at hl hc hw
  obtain ⟨r, hr⟩ := Int.eq_ofNat_of_zero_le hr0
  obtain ⟨c, hcn⟩ := Int.eq_ofNat_of_zero_le h0
  have hw0 : 0 ≤ ch.write_index := by omega
  obtain ⟨w, hwn⟩ := Int.eq_ofNat_of_zero_le hw0
  simp only [window, hr, hcn, hwn, CHANNEL_BUFFER_SIZE, Int.toNat_ofNat] at *
  have hc1 : ((c : Int) + 1).toNat = c + 1 := by omega
  rw [hc1, List.range_succ, List.map_append]
  have hwc : w = (r + c) % 100 := by omega
  congr 1
  · apply List.map_congr_left
    intro i hi
    rw [List.mem_range] at hi
    simp only [List.getD_eq_getElem?_getD, List.getElem?_set]
    have : w ≠ (r + i) % 100 := by omega
    simp [this]
  · simp only [List.map_cons, List.map_nil, List.getD_eq_getElem?_getD, List.getElem?_set]
    have hwl : w < ch.buffer.length := by omega
    simp [← hwc, hwl]

/-- Reading at `read_index` removes the oldest queued cell. -/
theorem window_pop (ch : channel) (hc : 0 < ch.count) (hr0 : 0 ≤ ch.read_index)
    (hr1 : ch.read_index < CHANNEL_BUFFER_SIZE) :
    window ch = ch.buffer.getD ch.read_index.toNat none ::
      window { ch with
        read_index := (ch.read_index + 1).tmod CHANNEL_BUFFER_SIZE
        count := ch.count - 1 } := by
  simp only [CHANNEL_BUFFER_SIZE, Nat.cast_ofNat] at hr1
  have htm : (ch.read_index + 1).tmod 100 = (ch.read_index + 1) % 100 :=
    Int.tmod_eq_emod (by omega) (by omega)
  obtain ⟨r, hr⟩ := Int.eq_ofNat_of_zero_le hr0
  obtain ⟨c, hcn⟩ := Int.eq_ofNat_of_zero_le (le_of_lt hc)
  simp only [window, hr, hcn, CHANNEL_BUFFER_SIZE, Int.toNat_ofNat, Nat.cast_ofNat] at *
  obtain ⟨k, rfl⟩ : ∃ k, c = k + 1 := ⟨c - 1, by omega⟩
  have hk : ((k + 1 : Nat) - 1 : Int).toNat = k := by omega
  have hr' : (((r : Int) + 1) % 100).toNat = (r + 1) % 100 := by omega
  rw [htm, hk, hr', List.range_succ_eq_map, List.map_cons, List.map_map]
  congr 1
  · have : (r + 0) % 100 = r := by omega
    rw [this]
  · apply List.map_congr_left
    intro i _
    have : (r + Nat.succ i) % 100 = ((r + 1) % 100 + i) % 100 := by omega
    simp only [Function.comp, this]

/-- The invariant holds when the threads start on an open, empty channel that satisfies the
channel invariant. -/
theorem threads_inv_start {s₀ : channel} (xs : List Nat) (h : inv s₀)
    (ho : s₀.is_closed = false) (hc : s₀.count = 0) : threads_inv xs (start s₀ xs) := by
  obtain ⟨hl, h0, h1, hr0, hr1, hw0, hw1, hw, hf, he⟩ := h
  have hwin : window s₀ = [] := by simp [window, hc]
  refine ⟨ho, hl, h0, h1, hr0, hr1, hw0, hw1, hw, ?_, ?_, ?_, ?_, ?_, ?_, ?_, ?_⟩
  · simpa [start, send_pc.reserved, receive_pc.owed] using he
  · simpa [start, send_pc.owed, receive_pc.reserved] using hf
  · simp [start]
  · simp [start]
  · simp [start]
  · simp [start, receive_pc.pending, unwritten, hwin]
  · simp [start]
  · simp [start]

theorem receive_owed_bounds (pc : receive_pc) : 0 ≤ pc.owed ∧ pc.owed ≤ 1 := by
  cases pc <;> simp [receive_pc.owed]

theorem receive_reserved_bounds (pc : receive_pc) : 0 ≤ pc.reserved ∧ pc.reserved ≤ 1 := by
  cases pc <;> simp [receive_pc.reserved]

theorem send_owed_bounds (pc : send_pc) : 0 ≤ pc.owed ∧ pc.owed ≤ 1 := by
  cases pc <;> simp [send_pc.owed]

theorem send_reserved_bounds (pc : send_pc) : 0 ≤ pc.reserved ∧ pc.reserved ≤ 1 := by
  cases pc <;> simp [send_pc.reserved]

/-- A step of the producer keeps the invariant and is one of the steps it had to take. -/
theorem producer_step_inv {xs : List Nat} {σ σ' : threads} (h : threads_inv xs σ)
    (hs : producer_step σ = .next σ') :
    threads_inv xs σ' ∧ producer_steps σ' + 1 = producer_steps σ ∧
      consumer_steps σ' = consumer_steps σ := by
  obtain ⟨ch, mutex, todo, spc, sent, remaining, rpc, got⟩ := σ
  obtain ⟨ho, hl, h0, h1, hr0, hr1, hw0, hw1, hw, hfree, hfilled, hex, hnu, hic, hval, hrl,
    hsd⟩ := h
  simp only at ho hl h0 h1 hr0 hr1 hw0 hw1 hw hfree hfilled hex hnu hic hval hrl hsd
  have hob := receive_owed_bounds rpc
  cases todo with
  | nil => simp [producer_step] at hs
  | cons v rest =>
    cases spc with
    | check =>
      simp only [producer_step, ho, Bool.false_eq_true, if_false, move.next.injEq] at hs
      subst hs
      refine ⟨⟨ho, hl, h0, h1, hr0, hr1, hw0, hw1, hw, ?_, ?_, ?_, ?_, ?_, ?_, hrl, hsd⟩, ?_, rfl⟩
      · simpa [send_pc.reserved] using hfree
      · simpa [send_pc.owed] using hfilled
      · simpa using hex
      · exact ⟨by simp, hnu.2⟩
      · exact ⟨fun _ => by simp, hic.2⟩
      · exact hval
      · simp only [producer_steps, List.length_cons]; omega
    | wait =>
      by_cases he : ch.empty = 0
      · simp [producer_step, sem_wait, he] at hs
      · simp only [producer_step, sem_wait, he, if_false, move.next.injEq] at hs
        subst hs
        refine ⟨⟨ho, hl, h0, h1, hr0, hr1, hw0, hw1, hw, ?_, ?_, ?_, ?_, ?_, ?_, hrl, hsd⟩,
          ?_, rfl⟩
        · simp only [send_pc.reserved] at hfree ⊢
          omega
        · simpa [send_pc.owed] using hfilled
        · simpa using hex
        · exact ⟨by simp, hnu.2⟩
        · exact ⟨fun _ => by simp, hic.2⟩
        · exact hval
        · simp only [producer_steps, List.length_cons]; omega
    | lock =>
      cases mutex with
      | true => simp [producer_step] at hs
      | false =>
        simp only [producer_step, Bool.false_eq_true, if_false, move.next.injEq] at hs
        subst hs
        refine ⟨⟨ho, hl, h0, h1, hr0, hr1, hw0, hw1, hw, ?_, ?_, ?_, ?_, ?_, ?_, hrl, hsd⟩,
          ?_, rfl⟩
        · simpa [send_pc.reserved] using hfree
        · simpa [send_pc.owed] using hfilled
        · simpa using hex
        · exact ⟨by simp, hnu.2⟩
        · exact ⟨fun _ => by simp, hic.2⟩
        · exact hval
        · simp only [producer_steps, List.length_cons]; omega
    | locked =>
      simp only [send_pc.reserved, send_pc.owed, CHANNEL_BUFFER_SIZE, Nat.cast_ofNat] at *
      have hlt : ch.count < 100 := by omega
      have hmax : ch.count ≠ INT_MAX := by simp only [INT_MAX]; omega
      have hnb : ¬ (ch.write_index < 0 ∨ (100 : Int) ≤ ch.write_index) := by omega
      have htm : (ch.write_index + 1).tmod 100 = (ch.write_index + 1) % 100 :=
        Int.tmod_eq_emod (by omega) (by omega)
      have hwin := window_push ch v hl h0 (by simpa [CHANNEL_BUFFER_SIZE] using hlt) hr0
        (by simpa [CHANNEL_BUFFER_SIZE] using hw)
      simp only [producer_step, send_critical, ho, hnb, hmax, CHANNEL_BUFFER_SIZE,
        Nat.cast_ofNat, Bool.false_eq_true, if_false, move.next.injEq] at hs hwin
      subst hs
      refine ⟨⟨rfl, ?_, ?_, ?_, hr0, ?_, ?_, ?_, ?_, ?_, ?_, ?_, ?_, ?_, ?_, hrl, hsd⟩, ?_, rfl⟩
      · simpa using hl
      · show 0 ≤ ch.count + 1
        omega
      · show ch.count + 1 ≤ (CHANNEL_BUFFER_SIZE : Int)
        simp only [CHANNEL_BUFFER_SIZE, Nat.cast_ofNat]; omega
      · simpa [CHANNEL_BUFFER_SIZE] using hr1
      · show 0 ≤ (ch.write_index + 1).tmod 100
        omega
      · show (ch.write_index + 1).tmod 100 < (CHANNEL_BUFFER_SIZE : Int)
        simp only [CHANNEL_BUFFER_SIZE, Nat.cast_ofNat]; omega
      · show (ch.write_index + 1).tmod 100 =
          (ch.read_index + (ch.count + 1)) % (CHANNEL_BUFFER_SIZE : Int)
        simp only [CHANNEL_BUFFER_SIZE, Nat.cast_ofNat]; omega
      · show (ch.empty : Int) + send_pc.post.reserved + rpc.owed + (ch.count + 1) =
          (CHANNEL_BUFFER_SIZE : Int)
        simp only [send_pc.reserved, CHANNEL_BUFFER_SIZE, Nat.cast_ofNat]; omega
      · show (ch.full : Int) + rpc.reserved + send_pc.post.owed = ch.count + 1
        simp only [send_pc.owed]; omega
      · have := hex.2
        simp only [true_and] at this
        simp [this]
      · exact ⟨by simp, hnu.2⟩
      · exact ⟨fun _ => by simp, hic.2⟩
      · simp only [unwritten, List.tail_cons] at hval ⊢
        rw [hwin, ← hval]
        simp
      · simp only [producer_steps, List.length_cons]; omega
    | undo => exact absurd rfl hnu.1
    | post =>
      simp only [producer_step, move.next.injEq] at hs
      subst hs
      refine ⟨⟨ho, hl, h0, h1, hr0, hr1, hw0, hw1, hw, ?_, ?_, ?_, ?_, ?_, ?_, hrl, ?_⟩, ?_, rfl⟩
      · simpa [send_pc.reserved] using hfree
      · simp only [send_pc.owed, sem_post] at hfilled ⊢
        push_cast
        omega
      · simpa using hex
      · exact ⟨by simp, hnu.2⟩
      · exact ⟨fun h => absurd rfl h, hic.2⟩
      · exact hval
      · refine ⟨?_, ?_⟩
        · simp only [List.length_append, List.length_cons, List.length_nil] at hsd ⊢
          omega
        · intro b hb
          rcases List.mem_append.mp hb with hb | hb
          · exact hsd.2 b hb
          · simpa using hb
      · simp only [producer_steps, List.length_cons]; omega

/-- A step of the consumer keeps the invariant and is one of the steps it had to take. -/
theorem consumer_step_inv {xs : List Nat} {σ σ' : threads} (h : threads_inv xs σ)
    (hs : consumer_step σ = .next σ') :
    threads_inv xs σ' ∧ consumer_steps σ' + 1 = consumer_steps σ ∧
      producer_steps σ' = producer_steps σ := by
  obtain ⟨ch, mutex, todo, spc, sent, remaining, rpc, got⟩ := σ
  obtain ⟨ho, hl, h0, h1, hr0, hr1, hw0, hw1, hw, hfree, hfilled, hex, hnu, hic, hval, hrl,
    hsd⟩ := h
  simp only at ho hl h0 h1 hr0 hr1 hw0 hw1 hw hfree hfilled hex hnu hic hval hrl hsd
  have hob := send_owed_bounds spc
  cases remaining with
  | zero => simp [consumer_step] at hs
  | succ n =>
    cases rpc with
    | wait =>
      by_cases hf : ch.full = 0
      · simp [consumer_step, sem_wait, hf] at hs
      · simp only [consumer_step, sem_wait, hf, if_false, move.next.injEq] at hs
        subst hs
        refine ⟨⟨ho, hl, h0, h1, hr0, hr1, hw0, hw1, hw, ?_, ?_, ?_, ?_, ?_, ?_, hrl, hsd⟩,
          ?_, rfl⟩
        · simpa [receive_pc.owed] using hfree
        · simp only [receive_pc.reserved] at hfilled ⊢
          omega
        · simpa using hex
        · exact ⟨hnu.1, by simp⟩
        · exact ⟨hic.1, fun _ => by simp⟩
        · exact hval
        · simp only [consumer_steps]; omega
    | lock =>
      cases mutex with
      | true => simp [consumer_step] at hs
      | false =>
        simp only [consumer_step, Bool.false_eq_true, if_false, move.next.injEq] at hs
        subst hs
        refine ⟨⟨ho, hl, h0, h1, hr0, hr1, hw0, hw1, hw, ?_, ?_, ?_, ?_, ?_, ?_, hrl, hsd⟩,
          ?_, rfl⟩
        · simpa [receive_pc.owed] using hfree
        · simpa [receive_pc.reserved] using hfilled
        · simpa using hex
        · exact ⟨hnu.1, by simp⟩
        · exact ⟨hic.1, fun _ => by simp⟩
        · exact hval
        · simp only [consumer_steps]; omega
    | locked =>
      simp only [receive_pc.reserved, receive_pc.owed, CHANNEL_BUFFER_SIZE,
        Nat.cast_ofNat] at *
      have hpos : 0 < ch.count := by omega
      have hne : ch.count ≠ 0 := by omega
      have hmin : ch.count ≠ INT_MIN := by simp only [INT_MIN]; omega
      have hnb : ¬ (ch.read_index < 0 ∨ (100 : Int) ≤ ch.read_index) := by omega
      have htm : (ch.read_index + 1).tmod 100 = (ch.read_index + 1) % 100 :=
        Int.tmod_eq_emod (by omega) (by omega)
      have hwin := window_pop ch hpos hr0 (by simpa [CHANNEL_BUFFER_SIZE] using hr1)
      simp only [consumer_step, receive_critical, hne, hnb, hmin, CHANNEL_BUFFER_SIZE,
        Nat.cast_ofNat, if_false, move.next.injEq] at hs hwin
      subst hs
      refine ⟨⟨ho, hl, ?_, ?_, ?_, ?_, hw0, ?_, ?_, ?_, ?_, ?_, ?_, ?_, ?_, hrl, hsd⟩, ?_, rfl⟩
      · show 0 ≤ ch.count - 1
        omega
      · show ch.count - 1 ≤ (CHANNEL_BUFFER_SIZE : Int)
        simp only [CHANNEL_BUFFER_SIZE, Nat.cast_ofNat]; omega
      · show 0 ≤ (ch.read_index + 1).tmod 100
        omega
      · show (ch.read_index + 1).tmod 100 < (CHANNEL_BUFFER_SIZE : Int)
        simp only [CHANNEL_BUFFER_SIZE, Nat.cast_ofNat]; omega
      · simpa [CHANNEL_BUFFER_SIZE] using hw1
      · show ch.write_index =
          ((ch.read_index + 1).tmod 100 + (ch.count - 1)) % (CHANNEL_BUFFER_SIZE : Int)
        simp only [CHANNEL_BUFFER_SIZE, Nat.cast_ofNat]; omega
      · show (ch.empty : Int) + spc.reserved +
            (receive_pc.post (ch.buffer.getD ch.read_index.toNat none)).owed + (ch.count - 1) =
          (CHANNEL_BUFFER_SIZE : Int)
        simp only [receive_pc.owed, CHANNEL_BUFFER_SIZE, Nat.cast_ofNat]; omega
      · show (ch.full : Int) +
            (receive_pc.post (ch.buffer.getD ch.read_index.toNat none)).reserved + spc.owed =
          ch.count - 1
        simp only [receive_pc.reserved]; omega
      · have := hex.2
        simp only [and_true] at this
        simp [this]
      · exact ⟨hnu.1, by simp⟩
      · exact ⟨hic.1, fun _ => by simp⟩
      · show got ++ [ch.buffer.getD ch.read_index.toNat none] ++ _ ++ _ = _
        rw [← hval, hwin]
        simp [receive_pc.pending, unwritten]
      · simp only [consumer_steps]; omega
    | undo => exact absurd rfl hnu.2
    | post d =>
      simp only [consumer_step, move.next.injEq] at hs
      subst hs
      refine ⟨⟨ho, hl, h0, h1, hr0, hr1, hw0, hw1, hw, ?_, ?_, ?_, ?_, ?_, ?_, ?_, hsd⟩, ?_, rfl⟩
      · simp only [receive_pc.owed, sem_post] at hfree ⊢
        push_cast
        omega
      · simpa [receive_pc.reserved] using hfilled
      · simpa using hex
      · exact ⟨hnu.1, by simp⟩
      · exact ⟨hic.1, fun h => absurd rfl h⟩
      · show got ++ [d] ++ [] ++ window ch ++ _ = _
        rw [← hval]
        simp [receive_pc.pending, unwritten]
      · simp only [List.length_append, List.length_cons, List.length_nil] at hrl ⊢
        omega
      · simp only [consumer_steps]; omega

/-- The receives still to return are the value in hand, the queued cells and the values not
yet written. -/
theorem threads_remaining_eq {xs : List Nat} {σ : threads} (h : threads_inv xs σ) :
    σ.remaining = σ.rpc.pending.length + σ.ch.count.toNat + (unwritten σ).length := by
  have hv := congrArg List.length h.values
  have hr := h.receives_left
  simp only [List.length_append, List.length_map, window_length] at hv
  omega

/-- The producer can step when it has a send to do, unless it waits for a free-slot permit
or for the mutex. -/
theorem producer_enabled {xs : List Nat} {σ : threads} (h : threads_inv xs σ)
    (htodo : σ.todo ≠ []) (hwait : σ.spc = .wait → σ.ch.empty ≠ 0)
    (hlock : σ.spc = .lock → σ.mutex = false) : ∃ σ', producer_step σ = .next σ' := by
  obtain ⟨ch, mutex, todo, spc, sent, remaining, rpc, got⟩ := σ
  obtain ⟨ho, hl, h0, h1, hr0, hr1, hw0, hw1, hw, hfree, hfilled, hex, hnu, hic, hval, hrl,
    hsd⟩ := h
  simp only at ho hl h0 h1 hr0 hr1 hw0 hw1 hw hfree hfilled hex hnu hic hval hrl hsd
  simp only at htodo hwait hlock
  have hob := receive_owed_bounds rpc
  cases todo with
  | nil => exact absurd rfl htodo
  | cons v rest =>
    cases spc with
    | check => exact ⟨_, by simp only [producer_step, ho, Bool.false_eq_true, if_false]; rfl⟩
    | wait => exact ⟨_, by simp only [producer_step, sem_wait, hwait rfl, if_false]; rfl⟩
    | lock => exact ⟨_, by simp only [producer_step, hlock rfl, Bool.false_eq_true, if_false]; rfl⟩
    | locked =>
      simp only [send_pc.reserved, CHANNEL_BUFFER_SIZE, Nat.cast_ofNat] at *
      have hmax : ch.count ≠ INT_MAX := by simp only [INT_MAX]; omega
      have hnb : ¬ (ch.write_index < 0 ∨ (100 : Int) ≤ ch.write_index) := by omega
      exact ⟨_, by simp only [producer_step, send_critical, ho, hnb, hmax, CHANNEL_BUFFER_SIZE,
        Nat.cast_ofNat, Bool.false_eq_true, if_false]; rfl⟩
    | undo => exact ⟨_, by simp only [producer_step]; rfl⟩
    | post => exact ⟨_, by simp only [producer_step]; rfl⟩

/-- The consumer can step when it has a receive to do, unless it waits for a filled-slot
permit or for the mutex. -/
theorem consumer_enabled {xs : List Nat} {σ : threads} (h : threads_inv xs σ)
    (hrem : σ.remaining ≠ 0) (hwait : σ.rpc = .wait → σ.ch.full ≠ 0)
    (hlock : σ.rpc = .lock → σ.mutex = false) : ∃ σ', consumer_step σ = .next σ' := by
  obtain ⟨ch, mutex, todo, spc, sent, remaining, rpc, got⟩ := σ
  obtain ⟨ho, hl, h0, h1, hr0, hr1, hw0, hw1, hw, hfree, hfilled, hex, hnu, hic, hval, hrl,
    hsd⟩ := h
  simp only at ho hl h0 h1 hr0 hr1 hw0 hw1 hw hfree hfilled hex hnu hic hval hrl hsd
  simp only at hrem hwait hlock
  have hob := send_owed_bounds spc
  cases remaining with
  | zero => exact absurd rfl hrem
  | succ n =>
    cases rpc with
    | wait => exact ⟨_, by simp only [consumer_step, sem_wait, hwait rfl, if_false]; rfl⟩
    | lock => exact ⟨_, by simp only [consumer_step, hlock rfl, Bool.false_eq_true, if_false]; rfl⟩
    | locked =>
      simp only [receive_pc.reserved, CHANNEL_BUFFER_SIZE, Nat.cast_ofNat] at *
      have hne : ch.count ≠ 0 := by omega
      have hmin : ch.count ≠ INT_MIN := by simp only [INT_MIN]; omega
      have hnb : ¬ (ch.read_index < 0 ∨ (100 : Int) ≤ ch.read_index) := by omega
      exact ⟨_, by simp only [consumer_step, receive_critical, hne, hnb, hmin,
        CHANNEL_BUFFER_SIZE, Nat.cast_ofNat, if_false]; rfl⟩
    | undo => exact ⟨_, by simp only [consumer_step]; rfl⟩
    | post d => exact ⟨_, by simp only [consumer_step]; rfl⟩

/-- No step of a thread is undefined under the invariant. -/
theorem thread_step_defined {xs : List Nat} {σ : threads} (h : threads_inv xs σ)
    (t : thread) : thread_step σ t ≠ .undefined := by
  cases t with
  | producer =>
    by_cases hen : σ.todo ≠ [] ∧ (σ.spc = .wait → σ.ch.empty ≠ 0) ∧
        (σ.spc = .lock → σ.mutex = false)
    · obtain ⟨σ', hσ⟩ := producer_enabled h hen.1 hen.2.1 hen.2.2
      simp [thread_step, hσ]
    · obtain ⟨ch, mutex, todo, spc, sent, remaining, rpc, got⟩ := σ
      simp only [thread_step, producer_step]
      cases todo with
      | nil => simp
      | cons v rest =>
        cases spc <;> simp_all [sem_wait]
  | consumer =>
    by_cases hen : σ.remaining ≠ 0 ∧ (σ.rpc = .wait → σ.ch.full ≠ 0) ∧
        (σ.rpc = .lock → σ.mutex = false)
    · obtain ⟨σ', hσ⟩ := consumer_enabled h hen.1 hen.2.1 hen.2.2
      simp [thread_step, hσ]
    · obtain ⟨ch, mutex, todo, spc, sent, remaining, rpc, got⟩ := σ
      simp only [thread_step, consumer_step]
      cases remaining with
      | zero => simp
      | succ n =>
        cases rpc <;> simp_all [sem_wait]

/-- No deadlock: while a thread has a step to take, one of the two threads can step. -/
theorem threads_progress {xs : List Nat} {σ : threads} (h : threads_inv xs σ)
    (hsteps : producer_steps σ + consumer_steps σ ≠ 0) :
    ∃ t σ', thread_step σ t = .next σ' := by
  have hrem := threads_remaining_eq h
  have hfree := h.free
  have hfilled := h.filled
  have hex := h.exclusion
  have hic := h.in_call
  have h0 := h.count_nonneg
  have hrb := receive_owed_bounds σ.rpc
  by_cases htodo : σ.todo = []
  · -- the producer has finished: the consumer has a receive to do and a value to take
    have hspc : σ.spc = .check := by
      by_contra hne
      exact hic.1 hne htodo
    have hremaining : σ.remaining ≠ 0 := by
      intro hz
      simp [producer_steps, consumer_steps, htodo, hz] at hsteps
    obtain ⟨σ', hσ⟩ := consumer_enabled h hremaining
      (by
        intro hw
        simp only [hw, hspc, receive_pc.pending, receive_pc.reserved, send_pc.owed, unwritten,
          htodo, List.length_nil] at hrem hfilled
        omega)
      (by
        intro hl
        cases hm : σ.mutex with
        | false => rfl
        | true =>
          have := hex.1.mp hm
          simp [hspc, hl] at this)
    exact ⟨.consumer, σ', hσ⟩
  · by_cases hblocked : (σ.spc = .wait ∧ σ.ch.empty = 0) ∨ (σ.spc = .lock ∧ σ.mutex = true)
    · rcases hblocked with ⟨hw, he⟩ | ⟨hl, hm⟩
      · -- the producer waits for a free slot: the buffer is full or the consumer owes a permit
        simp only [hw, he, send_pc.reserved, send_pc.owed, CHANNEL_BUFFER_SIZE,
          Nat.cast_ofNat] at hfree hfilled
        have hremaining : σ.remaining ≠ 0 := by
          cases hpc : σ.rpc with
          | post d => simp only [hpc, receive_pc.pending, List.length_singleton] at hrem; omega
          | _ => simp only [hpc, receive_pc.owed] at hfree; omega
        obtain ⟨σ', hσ⟩ := consumer_enabled h hremaining
          (by
            intro hrw
            simp only [hrw, receive_pc.owed, receive_pc.reserved] at hfree hfilled
            omega)
          (by
            intro hrl
            cases hm : σ.mutex with
            | false => rfl
            | true =>
              have := hex.1.mp hm
              simp [hw, hrl] at this)
        exact ⟨.consumer, σ', hσ⟩
      · -- the producer waits for the mutex: the consumer holds it
        have hrpc : σ.rpc = .locked := by
          rcases hex.1.mp hm with hs | hr
          · simp [hl] at hs
          · exact hr
        obtain ⟨σ', hσ⟩ := consumer_enabled h (hic.2 (by simp [hrpc]))
          (by simp [hrpc]) (by simp [hrpc])
        exact ⟨.consumer, σ', hσ⟩
    · obtain ⟨σ', hσ⟩ := producer_enabled h htodo
        (by
          intro hw he
          exact hblocked (Or.inl ⟨hw, he⟩))
        (by
          intro hl
          cases hm : σ.mutex with
          | false => rfl
          | true => exact absurd (Or.inr ⟨hl, hm⟩) hblocked)
      exact ⟨.producer, σ', hσ⟩

/-- When no thread has a step to take, every send has returned `true` and the consumer has
received the values sent, in order. -/
theorem threads_finished {xs : List Nat} {σ : threads} (h : threads_inv xs σ)
    (hsteps : producer_steps σ + consumer_steps σ = 0) :
    σ.todo = [] ∧ σ.remaining = 0 ∧ σ.sent = List.replicate xs.length true ∧
      σ.got = xs.map some := by
  have hrem := threads_remaining_eq h
  have hic := h.in_call
  have hval := h.values
  have hsd := h.sends_done
  have htodo : σ.todo = [] := by
    apply List.eq_nil_of_length_eq_zero
    have : producer_steps σ = 0 := by omega
    simp only [producer_steps] at this
    cases hpc : σ.spc <;> simp only [hpc] at this <;> omega
  have hremaining : σ.remaining = 0 := by
    have : consumer_steps σ = 0 := by omega
    simp only [consumer_steps] at this
    cases hpc : σ.rpc <;> simp only [hpc] at this <;> omega
  have hspc : σ.spc = .check := by
    by_contra hne
    exact hic.1 hne htodo
  have hrpc : σ.rpc = .wait := by
    by_contra hne
    exact hic.2 hne hremaining
  have hwin : window σ.ch = [] := by
    apply List.eq_nil_of_length_eq_zero
    rw [window_length]
    omega
  refine ⟨htodo, hremaining, ?_, ?_⟩
  · rw [List.eq_replicate_iff]
    refine ⟨?_, hsd.2⟩
    have := hsd.1
    simp only [htodo, List.length_nil] at this
    omega
  · simpa [hrpc, receive_pc.pending, hwin, unwritten, hspc, htodo] using hval

/-- Along an interleaving the invariant holds, and each of its steps is one of the steps the
threads had to take. -/
theorem interleave_inv {xs : List Nat} {σ σ' : threads} {sched : List thread}
    (h : threads_inv xs σ) (hs : interleave σ sched = .next σ') :
    threads_inv xs σ' ∧
      sched.length + (producer_steps σ' + consumer_steps σ') =
        producer_steps σ + consumer_steps σ := by
  induction sched generalizing σ with
  | nil =>
    simp only [interleave, move.next.injEq] at hs
    subst hs
    exact ⟨h, by simp⟩
  | cons t ts ih =>
    simp only [interleave] at hs
    cases hst : thread_step σ t with
    | blocked => simp [hst] at hs
    | undefined => simp [hst] at hs
    | next τ =>
      simp only [hst] at hs
      cases t with
      | producer =>
        obtain ⟨hi, hp, hc⟩ := producer_step_inv h hst
        obtain ⟨hi', hlen⟩ := ih hi hs
        refine ⟨hi', ?_⟩
        simp only [List.length_cons]
        omega
      | consumer =>
        obtain ⟨hi, hc, hp⟩ := consumer_step_inv h hst
        obtain ⟨hi', hlen⟩ := ih hi hs
        refine ⟨hi', ?_⟩
        simp only [List.length_cons]
        omega

/-- No interleaving runs into undefined behaviour. -/
theorem interleave_defined {xs : List Nat} {σ : threads} {sched : List thread}
    (h : threads_inv xs σ) : interleave σ sched ≠ .undefined := by
  induction sched generalizing σ with
  | nil => simp [interleave]
  | cons t ts ih =>
    simp only [interleave]
    cases hst : thread_step σ t with
    | blocked => simp
    | undefined => exact absurd hst (thread_step_defined h t)
    | next τ =>
      cases t with
      | producer => exact ih (producer_step_inv h hst).1
      | consumer => exact ih (consumer_step_inv h hst).1

/-- C13, as stated, fails: the channel holding the value `7` is reachable and open, and when
a producer sends `5` on it and a consumer receives once, the interleaving in which the
consumer runs first completes every call (the send returns `true`) and the consumer's result
is `7`, the value queued before, not `5`. -/
theorem producer_consumer_counterexample :
    reachable one_queued ∧ one_queued.is_closed = false ∧ one_queued.count = 1 ∧
    interleave (start one_queued [5])
      [.consumer, .consumer, .consumer, .consumer, .producer, .producer, .producer,
        .producer, .producer] = .next stale_received ∧
    stale_received.todo = [] ∧ stale_received.remaining = 0 ∧
    stale_received.sent = [true] ∧
    stale_received.got = [some 7] ∧ stale_received.got ≠ [5].map some :=
  ⟨reachable_one_queued, rfl, rfl, by decide, rfl, rfl, rfl, rfl, by decide⟩

/-- C13, amended (concurrent producer and consumer). On a reachable channel that is open and
empty (`count = 0`) let a producer thread send the values `xs` and a consumer thread receive
as many times, for any number of values. In every interleaving of their atomic steps
(semaphore operations, taking the mutex, critical sections) nothing is undefined; the results
received so far are an initial segment of `xs`, in order, and every send that returned gave
`true`. The interleaving has at most `9 * M` steps; while it has fewer, one of the threads
can step (no deadlock); and when it has `9 * M`, every call has returned and the consumer has
received exactly `xs`, in order. -/
theorem producer_consumer (s₀ : channel) (xs : List Nat) (sched : List thread)
    (hs : reachable s₀) (ho : s₀.is_closed = false) (hc : s₀.count = 0) :
    interleave (start s₀ xs) sched ≠ .undefined ∧
    ∀ σ, interleave (start s₀ xs) sched = .next σ →
      sched.length ≤ 9 * xs.length ∧
      (∃ n, σ.got = (xs.take n).map some) ∧
      (∀ b ∈ σ.sent, b = true) ∧
      (sched.length < 9 * xs.length → ∃ t σ', thread_step σ t = .next σ') ∧
      (sched.length = 9 * xs.length →
        σ.todo = [] ∧ σ.remaining = 0 ∧ σ.sent = List.replicate xs.length true ∧
        σ.got = xs.map some) := by
  have hstart := threads_inv_start xs (reachable_inv hs) ho hc
  refine ⟨interleave_defined hstart, ?_⟩
  intro σ hσ
  obtain ⟨hi, hlen⟩ := interleave_inv hstart hσ
  have h9 : producer_steps (start s₀ xs) + consumer_steps (start s₀ xs) = 9 * xs.length := by
    simp only [producer_steps, consumer_steps, start]
    omega
  rw [h9] at hlen
  refine ⟨by omega, ?_, hi.sends_done.2, ?_, ?_⟩
  · refine ⟨σ.got.length, ?_⟩
    have hval := hi.values
    rw [List.append_assoc, List.append_assoc] at hval
    have := congrArg (List.take σ.got.length) hval
    rw [List.take_left, ← List.map_take] at this
    exact this
  · intro hlt
    exact threads_progress hi (by omega)
  · intro heq
    exact threads_finished hi (by omega)

/-- Witness of `producer_consumer`: two values, the threads taking turns. -/
theorem producer_consumer_witness :
    reachable channel_init ∧ channel_init.is_closed = false ∧ channel_init.count = 0 ∧
    interleave (start channel_init [5, 6])
      [.producer, .producer, .producer, .producer, .producer, .consumer, .producer,
        .consumer, .producer, .consumer, .producer, .consumer, .producer, .producer,
        .consumer, .consumer, .consumer, .consumer] = .next two_received ∧
    two_received.todo = [] ∧ two_received.remaining = 0 ∧
    two_received.sent = List.replicate [5, 6].length true ∧
    two_received.got = [5, 6].map some :=
  ⟨reachable.create, rfl, rfl, by decide,
    ((producer_consumer channel_init [5, 6]
      [.producer, .producer, .producer, .producer, .producer, .consumer, .producer,
        .consumer, .producer, .consumer, .producer, .consumer, .producer, .producer,
        .consumer, .consumer, .consumer, .consumer] reachable.create rfl rfl).2
      two_received (by decide)).2.2.2.2 (by decide)⟩
